import Mathlib

/-!
Verification of the core of a Circle-STARK prover over the Mersenne-31 field:
the SIMD bit-reversal primitive (`bit_reverse_m31`, `bit_reverse16`), the
point evaluation accumulator, the AIR layer's `ConstantPolynomial` and the
default `ComponentProver::lookup_values`, and the `usize` division helpers.

The Rust source is shallowly embedded: packed SIMD words become functions
`Fin 16 → M31`, in-place slice mutation becomes explicit state passing over
`ℕ → PackedBaseField`, and functions that `assert!` return `Option`, with
`none` modelling the abort.
-/

/-! ## Base field values and packed lanes

`M31` is a value of the Mersenne-31 prime field GF(2³¹ − 1).  The bit-reverse
primitive only moves values around, so only equality of values is needed here;
the full ring structure (used by the accumulator claims) is built separately
below for the secure field. -/

abbrev M31 := Fin 2147483647

instance : Inhabited M31 := ⟨⟨0, by norm_num⟩⟩

/-- A packed SIMD word of W = 16 base field elements (`PackedBaseField` in
`core/backend/simd`). -/
abbrev PackedBaseField := Fin 16 → M31

/-- Reverse the low `b` bits of a natural number (bit `0` becomes bit `b-1`
and so on); everything above the low `b` bits is discarded. -/
def revBits : ℕ → ℕ → ℕ
  | 0, _ => 0
  | b + 1, i => i % 2 * 2 ^ b + revBits b (i / 2)

/-- Modelled from the spec: `bit_reverse_index(i, log_size)` (from
`core::utils`, whose source file is not part of this excerpt) reverses the
`log_size` low bits of `i`: "`idx_rev = bitrev_{n−VEC_BITS}(idx)`". -/
def bit_reverse_index (i log_size : ℕ) : ℕ := revBits log_size i

/-- Modelled from the spec: `u32::reverse_bits` from the Rust standard
library reverses the order of the 32 bits of its argument. -/
def u32_reverse_bits (x : ℕ) : ℕ := revBits 32 x

/-- Modelled from the spec: `usize::is_power_of_two` from the Rust standard
library returns `true` iff the argument equals `2^k` for some `k`; realized
executably through `Nat.log2`. -/
def is_power_of_two (n : ℕ) : Bool := n != 0 && n == 2 ^ n.log2

/-! ## The SIMD swizzles

`bit_reverse16` uses two cross-lane permutations from `simd/utils`.
`concat_swizzle(a, b)` builds a lane whose element `i` is element `INDEX[i]`
of the 32-element concatenation of `a` and `b`. -/

/-- Modelled from the spec: `LoLoInterleaveHiLo` (from `simd/utils`, not part
of this excerpt) interleaves the low half of `a` with the low half of `b`:
output element `xyzw` is element `0xyz` of input `w` (see the inline comment
in `bit_reverse.rs`), i.e. `INDEX = [0,16,1,17,…,7,23]`. -/
def LoLoInterleaveHiLo : List ℕ := [0, 16, 1, 17, 2, 18, 3, 19, 4, 20, 5, 21, 6, 22, 7, 23]

/-- Modelled from the spec: `LoHiInterleaveHiHi` interleaves the high half of
`a` with the high half of `b`: `INDEX = [8,24,9,25,…,15,31]`. -/
def LoHiInterleaveHiHi : List ℕ := [8, 24, 9, 25, 10, 26, 11, 27, 12, 28, 13, 29, 14, 30, 15, 31]

/-- Element `k` of the 32-element concatenation of lanes `a` and `b`. -/
def concat_lane (a b : PackedBaseField) (k : ℕ) : M31 :=
  if h : k < 16 then a ⟨k, h⟩
  else if h2 : k < 32 then b ⟨k - 16, by omega⟩
  else default

/-- `Swizzle::concat_swizzle` with a compile-time index pattern `idx`. -/
def concat_swizzle (idx : List ℕ) (a b : PackedBaseField) : PackedBaseField :=
  fun e => concat_lane a b (idx.getD e.val 0)

/-- One round of `bit_reverse16`: the array
`[LoLo(d₀,d₁), LoLo(d₂,d₃), …, LoLo(d₁₄,d₁₅), LoHi(d₀,d₁), …, LoHi(d₁₄,d₁₅)]`
from the body of the `for _ in 0..4` loop in `bit_reverse.rs`. -/
def bit_reverse16_round (d : Fin 16 → PackedBaseField) : Fin 16 → PackedBaseField :=
  fun j =>
    if h : j.val < 8 then
      concat_swizzle LoLoInterleaveHiLo (d ⟨2 * j.val, by omega⟩) (d ⟨2 * j.val + 1, by omega⟩)
    else
      concat_swizzle LoHiInterleaveHiHi
        (d ⟨2 * (j.val - 8), by omega⟩) (d ⟨2 * (j.val - 8) + 1, by omega⟩)

/-- Bit reverses 256 M31 values, packed in 16 words of 16 elements each
(`bit_reverse16` in `bit_reverse.rs`): four rounds of the
`abcd:0123 → 0abc:123d` permutation. -/
def bit_reverse16 (d : Fin 16 → PackedBaseField) : Fin 16 → PackedBaseField :=
  bit_reverse16_round (bit_reverse16_round (bit_reverse16_round (bit_reverse16_round d)))

/-- Source index of the round permutation: `bit_reverse16_round d v e` reads
element `(σP (v, e)).2` of input lane `(σP (v, e)).1`. -/
def σP (q : Fin 16 × Fin 16) : Fin 16 × Fin 16 :=
  let base : ℕ := if q.1.val < 8 then 2 * q.1.val else 2 * (q.1.val - 8)
  let k : ℕ := (if q.1.val < 8 then LoLoInterleaveHiLo else LoHiInterleaveHiHi).getD q.2.val 0
  (⟨(base + k / 16) % 16, by omega⟩, ⟨k % 16, by omega⟩)

/-! ## The in-place SIMD bit-reverse (`bit_reverse_m31`) -/

def VEC_BITS : ℕ := 4

def W_BITS : ℕ := 3

def MIN_LOG_SIZE : ℕ := 2 * W_BITS + VEC_BITS

/-- The index `((((w_h << a_bits) | a) << W_BITS) | w_l)` computed by the loop
body of `bit_reverse_m31` for the loop triple `t = (a, w_l, w_h)`.  The source
computes it in `u32`, so each left shift silently discards the bits at and
above `2^32`, modelled by the `% 2^32` after each shift. -/
def idxOf (a_bits : ℕ) (t : ℕ × ℕ × ℕ) : ℕ :=
  ((((t.2.2 <<< a_bits) % 2 ^ 32) ||| t.1) <<< W_BITS) % 2 ^ 32 ||| t.2.1

/-- The untruncated value of the loop index `((((w_h << a_bits) | a) << W_BITS)
| w_l)`, used by the proofs; it agrees with the `u32` computation `idxOf`
whenever `a_bits ≤ 26` (proved below). -/
def idxN (a_bits : ℕ) (t : ℕ × ℕ × ℕ) : ℕ :=
  (((t.2.2 <<< a_bits) ||| t.1) <<< W_BITS) ||| t.2.1

/-- The loop triples `(a, w_l, w_h)` of `bit_reverse_m31`, in execution order:
`a ∈ 0..(1 << a_bits)`, `w_l ∈ 0..(1 << W_BITS)`, and
`w_h ∈ 0..(w_l.reverse_bits() >> (u32::BITS − W_BITS)) + 1`.  The bounds are
`u32` values; for `a_bits ≤ 31` the shift `1u32 << a_bits` is exact, and for
`a_bits ≥ 32` it panics under checked arithmetic before the first iteration,
which `bit_reverse_m31` models by aborting before folding over this list. -/
def iters (a_bits : ℕ) : List (ℕ × ℕ × ℕ) :=
  (List.range (1 <<< a_bits)).flatMap fun a =>
    (List.range (1 <<< W_BITS)).flatMap fun w_l =>
      (List.range (u32_reverse_bits w_l >>> (32 - W_BITS) + 1)).map fun w_h => (a, w_l, w_h)

/-- The body of the triple loop of `bit_reverse_m31`, acting on the slice
state `d : ℕ → PackedBaseField`.  It computes `idx` and `idx_rev`, skips if
`idx > idx_rev`, reads the 16-lane chunk(s) at stride
`1 << (2·W_BITS + a_bits)`, applies `bit_reverse16` and writes back (swapped,
or in place for a palindrome index). -/
def step (log_size a_bits : ℕ) (d : ℕ → PackedBaseField) (t : ℕ × ℕ × ℕ) :
    ℕ → PackedBaseField :=
  let idx := idxOf a_bits t
  let idx_rev := bit_reverse_index idx (log_size - VEC_BITS)
  if idx > idx_rev then d
  else
    let values0 := bit_reverse16 fun i => d (idx + (i.val <<< (2 * W_BITS + a_bits)))
    if idx = idx_rev then
      (List.finRange 16).foldl
        (fun d i => Function.update d (idx + (i.val <<< (2 * W_BITS + a_bits))) (values0 i)) d
    else
      let values1 := bit_reverse16 fun i => d (idx_rev + (i.val <<< (2 * W_BITS + a_bits)))
      (List.finRange 16).foldl
        (fun d i =>
          Function.update
            (Function.update d (idx + (i.val <<< (2 * W_BITS + a_bits))) (values1 i))
            (idx_rev + (i.val <<< (2 * W_BITS + a_bits))) (values0 i)) d

/-- Bit reverses packed M31 values (`bit_reverse_m31` in `bit_reverse.rs`).
Given an array `A[0..2^n)` it computes `B[i] = A[bit_reverse(i)]` in place.
The two entry `assert!`s are modelled by returning `none` (abort), and so is
the checked `u32` shift in the outer loop bound `1u32 << a_bits`, which
panics when the shift amount `a_bits` reaches the `u32` width 32
(`log_size ≥ 42`). -/
def bit_reverse_m31 (data : List PackedBaseField) : Option (List PackedBaseField) :=
  if ¬ is_power_of_two data.length then none
  else if data.length.log2 < MIN_LOG_SIZE then none
  else
    let log_size := data.length.log2
    let a_bits := log_size - 2 * W_BITS - VEC_BITS
    if 32 ≤ a_bits then none
    else
      let d0 : ℕ → PackedBaseField := fun p => data.getD p default
      let dfin := (iters a_bits).foldl (step log_size a_bits) d0
      some ((List.range data.length).map dfin)

/-- Every slice index passed to `get_unchecked` / `get_unchecked_mut` by
`bit_reverse_m31` on a slice of `2^log_size` lanes, in access order: the
chunk reads and writes at `idx + (i << (2·W_BITS + a_bits))` and
`idx_rev + (i << (2·W_BITS + a_bits))` of each non-skipped loop iteration,
with `idx` the `u32` (truncating) index value.  For `log_size ≥ 42` a checked
run aborts on the loop bound shift before any access, so the real access set
is a subset of this nominal list. -/
def bit_reverse_m31_unchecked_indices (log_size : ℕ) : List ℕ :=
  let a_bits := log_size - 2 * W_BITS - VEC_BITS
  (iters a_bits).flatMap fun t =>
    let idx := idxOf a_bits t
    let idx_rev := bit_reverse_index idx (log_size - VEC_BITS)
    if idx > idx_rev then []
    else if idx = idx_rev then
      (List.range 16).map fun i => idx + (i <<< (2 * W_BITS + a_bits))
    else
      (List.range 16).flatMap fun i =>
        [idx + (i <<< (2 * W_BITS + a_bits)), idx_rev + (i <<< (2 * W_BITS + a_bits))]

/-- Unwrap the result of `bit_reverse_m31` (the slice after a successful,
non-aborting call). -/
def outOf (r : Option (List PackedBaseField)) : List PackedBaseField := r.getD []

/-- Unpack a slice of packed lanes into the underlying sequence of base field
elements (element `16·l + e` is element `e` of lane `l`). -/
def unpack (l : List PackedBaseField) : List M31 :=
  l.flatMap fun lane => List.ofFn lane

/-- Concrete 1024-lane slice whose element at element index `j` is the value
`j`: lane `l` holds the values `16·l … 16·l+15`. -/
def seqData : List PackedBaseField :=
  (List.range 1024).map fun l => fun e => ⟨(16 * l + e.val) % 2147483647, by omega⟩

/-! ## Normalized restatement of `step`, used by the proofs

`stepN` is `step` with `i << (2·W_BITS + a_bits)` written as
`i * 2^(2·W_BITS + a_bits)`, `bit_reverse_index _ (log_size − VEC_BITS)`
written as `revBits (2·W_BITS + a_bits) _`, and the truncating `u32` index
`idxOf` replaced by its untruncated value `idxN`; the two agree on every
loop triple whenever `log_size = a_bits + MIN_LOG_SIZE` and `a_bits ≤ 26`
(proved below). -/
def stepN (a_bits : ℕ) (d : ℕ → PackedBaseField) (t : ℕ × ℕ × ℕ) :
    ℕ → PackedBaseField :=
  let S := 2 ^ (2 * W_BITS + a_bits)
  let idx := idxN a_bits t
  let idx_rev := revBits (2 * W_BITS + a_bits) idx
  if idx > idx_rev then d
  else
    let values0 := bit_reverse16 fun i => d (idx + i.val * S)
    if idx = idx_rev then
      (List.finRange 16).foldl
        (fun d i => Function.update d (idx + i.val * S) (values0 i)) d
    else
      let values1 := bit_reverse16 fun i => d (idx_rev + i.val * S)
      (List.finRange 16).foldl
        (fun d i =>
          Function.update (Function.update d (idx + i.val * S) (values1 i))
            (idx_rev + i.val * S) (values0 i)) d

/-- Whether the loop iteration `t` performs its swap (is not skipped by the
`idx > idx_rev` test). -/
def execIter (a_bits : ℕ) (t : ℕ × ℕ × ℕ) : Prop :=
  idxN a_bits t ≤ revBits (2 * W_BITS + a_bits) (idxN a_bits t)

/-- Whether iteration `t` writes the lanes `{q + i·2^(2·W_BITS+a_bits)}`. -/
def hitsQ (a_bits q : ℕ) (t : ℕ × ℕ × ℕ) : Prop :=
  execIter a_bits t ∧
    (q = idxN a_bits t ∨ q = revBits (2 * W_BITS + a_bits) (idxN a_bits t))

/-! ## The secure field E = QM31

Modelled from the spec: the base field F is GF(2³¹ − 1) and the secure field
E is its degree-4 extension (`core/fields`, not part of this excerpt),
realized as F[i]/(i² + 1) followed by CM31[u]/(u² − (2 + i)). -/

abbrev M31F := ZMod 2147483647

/-- Degree-2 extension CM31 = F[i]/(i² + 1). -/
@[ext] structure CM31 where
  a : M31F
  b : M31F

instance : Zero CM31 := ⟨⟨0, 0⟩⟩
instance : One CM31 := ⟨⟨1, 0⟩⟩
instance : Add CM31 := ⟨fun x y => ⟨x.a + y.a, x.b + y.b⟩⟩
instance : Neg CM31 := ⟨fun x => ⟨-x.a, -x.b⟩⟩
instance : Mul CM31 := ⟨fun x y => ⟨x.a * y.a - x.b * y.b, x.a * y.b + x.b * y.a⟩⟩

def CM31.pa : ∀ u v : CM31, (u + v).a = u.a + v.a := fun _ _ => rfl
def CM31.pb : ∀ u v : CM31, (u + v).b = u.b + v.b := fun _ _ => rfl
def CM31.ma : ∀ u v : CM31, (u * v).a = u.a * v.a - u.b * v.b := fun _ _ => rfl
def CM31.mb : ∀ u v : CM31, (u * v).b = u.a * v.b + u.b * v.a := fun _ _ => rfl
def CM31.na : ∀ u : CM31, (-u).a = -u.a := fun _ => rfl
def CM31.nb : ∀ u : CM31, (-u).b = -u.b := fun _ => rfl
def CM31.za : (0 : CM31).a = 0 := rfl
def CM31.zb : (0 : CM31).b = 0 := rfl
def CM31.oa : (1 : CM31).a = 1 := rfl
def CM31.ob : (1 : CM31).b = 0 := rfl

def CM31.addAssocP : ∀ x y z : CM31, x + y + z = x + (y + z) := by
  intro x y z; ext <;> simp only [CM31.pa, CM31.pb] <;> ring
def CM31.zeroAddP : ∀ x : CM31, 0 + x = x := by
  intro x; ext <;> simp only [CM31.pa, CM31.pb, CM31.za, CM31.zb] <;> ring
def CM31.addZeroP : ∀ x : CM31, x + 0 = x := by
  intro x; ext <;> simp only [CM31.pa, CM31.pb, CM31.za, CM31.zb] <;> ring
def CM31.addCommP : ∀ x y : CM31, x + y = y + x := by
  intro x y; ext <;> simp only [CM31.pa, CM31.pb] <;> ring
def CM31.negAddCancelP : ∀ x : CM31, -x + x = 0 := by
  intro x; ext <;> simp only [CM31.pa, CM31.pb, CM31.na, CM31.nb, CM31.za, CM31.zb] <;> ring
def CM31.mulAssocP : ∀ x y z : CM31, x * y * z = x * (y * z) := by
  intro x y z; ext <;> simp only [CM31.ma, CM31.mb] <;> ring
def CM31.oneMulP : ∀ x : CM31, 1 * x = x := by
  intro x; ext <;> simp only [CM31.ma, CM31.mb, CM31.oa, CM31.ob] <;> ring
def CM31.mulOneP : ∀ x : CM31, x * 1 = x := by
  intro x; ext <;> simp only [CM31.ma, CM31.mb, CM31.oa, CM31.ob] <;> ring
def CM31.mulCommP : ∀ x y : CM31, x * y = y * x := by
  intro x y; ext <;> simp only [CM31.ma, CM31.mb] <;> ring
def CM31.leftDistribP : ∀ x y z : CM31, x * (y + z) = x * y + x * z := by
  intro x y z; ext <;> simp only [CM31.pa, CM31.pb, CM31.ma, CM31.mb] <;> ring
def CM31.rightDistribP : ∀ x y z : CM31, (x + y) * z = x * z + y * z := by
  intro x y z; ext <;> simp only [CM31.pa, CM31.pb, CM31.ma, CM31.mb] <;> ring
def CM31.zeroMulP : ∀ x : CM31, 0 * x = 0 := by
  intro x; ext <;> simp only [CM31.ma, CM31.mb, CM31.za, CM31.zb] <;> ring
def CM31.mulZeroP : ∀ x : CM31, x * 0 = 0 := by
  intro x; ext <;> simp only [CM31.ma, CM31.mb, CM31.za, CM31.zb] <;> ring

instance : CommRing CM31 where
  add_assoc := CM31.addAssocP
  zero_add := CM31.zeroAddP
  add_zero := CM31.addZeroP
  add_comm := CM31.addCommP
  neg_add_cancel := CM31.negAddCancelP
  mul_assoc := CM31.mulAssocP
  one_mul := CM31.oneMulP
  mul_one := CM31.mulOneP
  mul_comm := CM31.mulCommP
  left_distrib := CM31.leftDistribP
  right_distrib := CM31.rightDistribP
  zero_mul := CM31.zeroMulP
  mul_zero := CM31.mulZeroP
  nsmul := nsmulRec
  zsmul := zsmulRec

/-- The extension constant R = 2 + i with u² = R. -/
def CM31.R : CM31 := ⟨2, 1⟩

/-- Degree-4 extension QM31 = CM31[u]/(u² − (2 + i)): the secure field E. -/
@[ext] structure QM31 where
  a : CM31
  b : CM31

instance : Zero QM31 := ⟨⟨0, 0⟩⟩
instance : One QM31 := ⟨⟨1, 0⟩⟩
instance : Add QM31 := ⟨fun x y => ⟨x.a + y.a, x.b + y.b⟩⟩
instance : Neg QM31 := ⟨fun x => ⟨-x.a, -x.b⟩⟩
instance : Mul QM31 := ⟨fun x y => ⟨x.a * y.a + CM31.R * (x.b * y.b), x.a * y.b + x.b * y.a⟩⟩

def QM31.pa : ∀ u v : QM31, (u + v).a = u.a + v.a := fun _ _ => rfl
def QM31.pb : ∀ u v : QM31, (u + v).b = u.b + v.b := fun _ _ => rfl
def QM31.ma : ∀ u v : QM31, (u * v).a = u.a * v.a + CM31.R * (u.b * v.b) := fun _ _ => rfl
def QM31.mb : ∀ u v : QM31, (u * v).b = u.a * v.b + u.b * v.a := fun _ _ => rfl
def QM31.na : ∀ u : QM31, (-u).a = -u.a := fun _ => rfl
def QM31.nb : ∀ u : QM31, (-u).b = -u.b := fun _ => rfl
def QM31.za : (0 : QM31).a = 0 := rfl
def QM31.zb : (0 : QM31).b = 0 := rfl
def QM31.oa : (1 : QM31).a = 1 := rfl
def QM31.ob : (1 : QM31).b = 0 := rfl

def QM31.addAssocP : ∀ x y z : QM31, x + y + z = x + (y + z) := by
  intro x y z; ext <;> simp only [QM31.pa, QM31.pb] <;> ring
def QM31.zeroAddP : ∀ x : QM31, 0 + x = x := by
  intro x; ext <;> simp only [QM31.pa, QM31.pb, QM31.za, QM31.zb] <;> ring
def QM31.addZeroP : ∀ x : QM31, x + 0 = x := by
  intro x; ext <;> simp only [QM31.pa, QM31.pb, QM31.za, QM31.zb] <;> ring
def QM31.addCommP : ∀ x y : QM31, x + y = y + x := by
  intro x y; ext <;> simp only [QM31.pa, QM31.pb] <;> ring
def QM31.negAddCancelP : ∀ x : QM31, -x + x = 0 := by
  intro x; ext <;> simp only [QM31.pa, QM31.pb, QM31.na, QM31.nb, QM31.za, QM31.zb] <;> ring
def QM31.mulAssocP : ∀ x y z : QM31, x * y * z = x * (y * z) := by
  intro x y z; ext <;> simp only [QM31.ma, QM31.mb] <;> ring
def QM31.oneMulP : ∀ x : QM31, 1 * x = x := by
  intro x; ext <;> simp only [QM31.ma, QM31.mb, QM31.oa, QM31.ob] <;> ring
def QM31.mulOneP : ∀ x : QM31, x * 1 = x := by
  intro x; ext <;> simp only [QM31.ma, QM31.mb, QM31.oa, QM31.ob] <;> ring
def QM31.mulCommP : ∀ x y : QM31, x * y = y * x := by
  intro x y; ext <;> simp only [QM31.ma, QM31.mb] <;> ring
def QM31.leftDistribP : ∀ x y z : QM31, x * (y + z) = x * y + x * z := by
  intro x y z; ext <;> simp only [QM31.pa, QM31.pb, QM31.ma, QM31.mb] <;> ring
def QM31.rightDistribP : ∀ x y z : QM31, (x + y) * z = x * z + y * z := by
  intro x y z; ext <;> simp only [QM31.pa, QM31.pb, QM31.ma, QM31.mb] <;> ring
def QM31.zeroMulP : ∀ x : QM31, 0 * x = 0 := by
  intro x; ext <;> simp only [QM31.ma, QM31.mb, QM31.za, QM31.zb] <;> ring
def QM31.mulZeroP : ∀ x : QM31, x * 0 = 0 := by
  intro x; ext <;> simp only [QM31.ma, QM31.mb, QM31.za, QM31.zb] <;> ring

instance : CommRing QM31 where
  add_assoc := QM31.addAssocP
  zero_add := QM31.zeroAddP
  add_zero := QM31.addZeroP
  add_comm := QM31.addCommP
  neg_add_cancel := QM31.negAddCancelP
  mul_assoc := QM31.mulAssocP
  one_mul := QM31.oneMulP
  mul_one := QM31.mulOneP
  mul_comm := QM31.mulCommP
  left_distrib := QM31.leftDistribP
  right_distrib := QM31.rightDistribP
  zero_mul := QM31.zeroMulP
  mul_zero := QM31.mulZeroP
  nsmul := nsmulRec
  zsmul := zsmulRec

/-- The secure field E. -/
abbrev SecureField := QM31

/-! ## The point evaluation accumulator

Modelled from the spec (`core/air/accumulation.rs` is not part of this
excerpt): "State: `{ α ∈ E, acc ∈ E, count }`.  Operation `accumulate(v ∈ E)`
updates `acc ← acc · α + v`." -/

structure PointEvaluationAccumulator where
  random_coeff : SecureField
  accumulation : SecureField

/-- Modelled from the spec: `accumulate` folds one more constraint quotient
evaluation into the running combination: `acc ← acc · α + v`. -/
def PointEvaluationAccumulator.accumulate (acc : PointEvaluationAccumulator)
    (evaluation : SecureField) : PointEvaluationAccumulator :=
  { acc with accumulation := acc.accumulation * acc.random_coeff + evaluation }

/-- Modelled from the spec: a fresh accumulator for challenge α starts with
accumulated value 0. -/
def PointEvaluationAccumulator.new (random_coeff : SecureField) :
    PointEvaluationAccumulator :=
  { random_coeff := random_coeff, accumulation := 0 }

/-! ## AIR layer pieces (`core/air/mod.rs`) -/

/-- Ordered sequence indexed by interaction tree index (spec §3). -/
abbrev TreeVec (T : Type) := List T

/-- Ordered sequence indexed by column position (spec §3). -/
abbrev ColumnVec (T : Type) := List T

/-- Modelled from the spec: `InteractionElements` is a mapping from string
identifier to secure field element (a `BTreeMap` in the crate root, not part
of this excerpt), here an association list. -/
abbrev InteractionElements := List (String × SecureField)

/-- Modelled from the spec: `LookupValues` is a mapping from string identifier
to secure field element (a `BTreeMap` newtype in the crate root, not part of
this excerpt), here an association list; `default` is the empty mapping. -/
abbrev LookupValues := List (String × SecureField)

/-- `LookupValues::default()`: the empty mapping. -/
def LookupValues.default : LookupValues := []

/-- The polynomial that ignores the interaction elements and the evaluation
point (`ConstantPolynomial` in `core/air/mod.rs`, a tuple struct around one
`SecureField`). -/
structure ConstantPolynomial where
  c : SecureField

/-- `ConstantPolynomial::one()`. -/
def ConstantPolynomial.one : ConstantPolynomial := ⟨1⟩

/-- The `MultilinearPolynomial::eval` implementation of `ConstantPolynomial`:
returns the stored constant, ignoring both arguments. -/
def ConstantPolynomial.eval (p : ConstantPolynomial)
    (_interaction_elements : InteractionElements) (_point : List SecureField) :
    SecureField :=
  p.c

/-- A component trace: polynomials and evaluations for each column of one
component (`ComponentTrace` in `core/air/mod.rs`).  The `CirclePoly` and
`CircleEvaluation` column types live outside this excerpt, so they are type
parameters here. -/
structure ComponentTrace (Poly Eval : Type) where
  polys : TreeVec (ColumnVec Poly)
  evals : TreeVec (ColumnVec Eval)

/-- The default implementation of `ComponentProver::lookup_values` from
`core/air/mod.rs`: `LookupValues::default()`, whatever the trace. -/
def ComponentProver.lookup_values {Poly Eval : Type}
    (_trace : ComponentTrace Poly Eval) : LookupValues :=
  LookupValues.default

/-! ## The `usize` division helpers (`math/mod.rs`)

`usize` is 64 bits wide.  `usize_div_ceil(a, b)` computes `(a + b - 1) / b`
after `assert_ne!(b, 0)`; under Rust's checked (debug) arithmetic the
intermediate sum `a + b` aborts when it overflows the 64-bit range, and the
subsequent `- 1` never underflows (`b ≠ 0`), so the call aborts (`none`)
exactly when `a + b ≥ 2^64`. -/

def usize_div_ceil (a b : ℕ) : Option ℕ :=
  if b = 0 then none
  else if a + b < 2 ^ 64 then some ((a + b - 1) / b)
  else none

/-- `usize_safe_div(a, b)`: `assert_ne!(b, 0)`, then `a / b` with
`assert_eq!(a, quotient * b)` (abort on a remainder). -/
def usize_safe_div (a b : ℕ) : Option ℕ :=
  if b = 0 then none
  else
    let quotient := a / b
    if a = quotient * b then some quotient else none

/-! # Theorems

First the arithmetic of `revBits`, then the analysis of `bit_reverse16` and
of the loop structure of `bit_reverse_m31`, then the claims. -/

theorem revBits_lt (b : ℕ) : ∀ i, revBits b i < 2 ^ b := by
  induction b with
  | zero => intro i; simp [revBits]
  | succ b ih =>
      intro i
      have h1 : i % 2 ≤ 1 := by omega
      have h2 := ih (i / 2)
      have h3 : i % 2 * 2 ^ b ≤ 2 ^ b := by
        calc i % 2 * 2 ^ b ≤ 1 * 2 ^ b := Nat.mul_le_mul_right _ h1
        _ = 2 ^ b := one_mul _
      calc revBits (b + 1) i = i % 2 * 2 ^ b + revBits b (i / 2) := rfl
      _ < 2 ^ b + 2 ^ b := by omega
      _ = 2 ^ (b + 1) := by ring

/-- Concatenation law: reversing `k + m` bits of `hi·2^k + lo` (with
`lo < 2^k`) puts `rev_k lo` in the high `k` bits and `rev_m hi` below. -/
theorem revBits_concat (k : ℕ) :
    ∀ m hi lo, lo < 2 ^ k →
      revBits (k + m) (hi * 2 ^ k + lo) = revBits k lo * 2 ^ m + revBits m hi := by
  induction k with
  | zero =>
      intro m hi lo hlo
      have : lo = 0 := by omega
      subst this
      simp [revBits]
  | succ k ih =>
      intro m hi lo hlo
      have hx : hi * 2 ^ (k + 1) + lo = (hi * 2 ^ k + lo / 2) * 2 + lo % 2 := by
        have := Nat.div_add_mod lo 2
        ring_nf
        omega
      have hmod : (hi * 2 ^ (k + 1) + lo) % 2 = lo % 2 := by
        rw [hx]
        omega
      have hdiv : (hi * 2 ^ (k + 1) + lo) / 2 = hi * 2 ^ k + lo / 2 := by
        rw [hx]
        omega
      have hstep : k + 1 + m = (k + m) + 1 := by omega
      calc revBits (k + 1 + m) (hi * 2 ^ (k + 1) + lo)
          = revBits ((k + m) + 1) (hi * 2 ^ (k + 1) + lo) := by rw [hstep]
        _ = (hi * 2 ^ (k + 1) + lo) % 2 * 2 ^ (k + m)
              + revBits (k + m) ((hi * 2 ^ (k + 1) + lo) / 2) := rfl
        _ = lo % 2 * 2 ^ (k + m) + revBits (k + m) (hi * 2 ^ k + lo / 2) := by
              rw [hmod, hdiv]
        _ = lo % 2 * 2 ^ (k + m) + (revBits k (lo / 2) * 2 ^ m + revBits m hi) := by
              rw [ih m hi (lo / 2) (by omega)]
        _ = (lo % 2 * 2 ^ k + revBits k (lo / 2)) * 2 ^ m + revBits m hi := by ring
        _ = revBits (k + 1) lo * 2 ^ m + revBits m hi := rfl

theorem revBits_involutive (b : ℕ) : ∀ i, i < 2 ^ b → revBits b (revBits b i) = i := by
  induction b with
  | zero => intro i hi; interval_cases i; rfl
  | succ b ih =>
      intro i hi
      have h2 := revBits_lt b (i / 2)
      have hrw : revBits (b + 1) i = i % 2 * 2 ^ b + revBits b (i / 2) := rfl
      have hcc : revBits (b + 1) (i % 2 * 2 ^ b + revBits b (i / 2))
          = revBits b (revBits b (i / 2)) * 2 ^ 1 + revBits 1 (i % 2) := by
        exact revBits_concat b 1 (i % 2) (revBits b (i / 2)) h2
      have hone : revBits 1 (i % 2) = i % 2 := by
        have h1 : revBits 1 (i % 2) = i % 2 % 2 * 2 ^ 0 + revBits 0 (i % 2 / 2) := rfl
        have h0 : revBits 0 (i % 2 / 2) = 0 := rfl
        rw [h1, h0, pow_zero]
        omega
      have hdd : i / 2 < 2 ^ b := by
        have : 2 ^ (b + 1) = 2 ^ b * 2 := by ring
        omega
      rw [hrw, hcc, ih _ hdd, hone]
      have := Nat.div_add_mod i 2
      ring_nf
      omega

/-- OR of a shifted value with a small value is their sum: the loop index
`(x << k) | lo` equals `x · 2^k + lo` when `lo < 2^k`. -/
theorem shiftLeft_lor_eq_add (x k lo : ℕ) (h : lo < 2 ^ k) :
    (x <<< k) ||| lo = x * 2 ^ k + lo := by
  apply Nat.eq_of_testBit_eq
  intro j
  rw [Nat.testBit_lor, Nat.testBit_shiftLeft]
  have hadd := Nat.testBit_mul_pow_two_add x h j
  rw [mul_comm (2 ^ k) x] at hadd
  rw [hadd]
  by_cases hj : j < k
  · have : ¬ (j ≥ k) := by omega
    simp [this, hj]
  · have hge : j ≥ k := by omega
    have hlo : lo.testBit j = false :=
      Nat.testBit_eq_false_of_lt (lt_of_lt_of_le h (Nat.pow_le_pow_right (by norm_num) hge))
    simp [hge, hj, hlo]

/-- The loop index in closed arithmetic form:
`idxN a_bits (a, w_l, w_h) = (w_h · 2^a_bits + a) · 2^W_BITS + w_l`. -/
theorem idxN_eq (a_bits a w_l w_h : ℕ) (ha : a < 2 ^ a_bits) (hwl : w_l < 2 ^ W_BITS) :
    idxN a_bits (a, w_l, w_h) = (w_h * 2 ^ a_bits + a) * 2 ^ W_BITS + w_l := by
  show (((w_h <<< a_bits) ||| a) <<< W_BITS) ||| w_l = _
  rw [shiftLeft_lor_eq_add _ _ _ ha, shiftLeft_lor_eq_add _ _ _ hwl]

/-! ## Claims C6, C8, C9, C10 -/

/-- Folding `accumulate` from an arbitrary start value. -/
theorem accumulate_foldl (α acc0 : SecureField) (vs : List SecureField) :
    (vs.foldl PointEvaluationAccumulator.accumulate ⟨α, acc0⟩).accumulation
      = α ^ vs.length * acc0
        + ∑ i ∈ Finset.range vs.length, α ^ (vs.length - 1 - i) * vs.getD i 0 := by
  induction vs generalizing acc0 with
  | nil => simp
  | cons v rest ih =>
      have hstep : PointEvaluationAccumulator.accumulate ⟨α, acc0⟩ v
          = ⟨α, acc0 * α + v⟩ := rfl
      calc ((v :: rest).foldl PointEvaluationAccumulator.accumulate ⟨α, acc0⟩).accumulation
          = (rest.foldl PointEvaluationAccumulator.accumulate ⟨α, acc0 * α + v⟩).accumulation := by
            rw [List.foldl_cons, hstep]
        _ = α ^ rest.length * (acc0 * α + v)
              + ∑ i ∈ Finset.range rest.length, α ^ (rest.length - 1 - i) * rest.getD i 0 :=
            ih _
        _ = α ^ (v :: rest).length * acc0
              + ∑ i ∈ Finset.range (v :: rest).length,
                  α ^ ((v :: rest).length - 1 - i) * (v :: rest).getD i 0 := by
            rw [List.length_cons, Finset.sum_range_succ']
            have h0 : (v :: rest).getD 0 0 = v := rfl
            have hsub : rest.length + 1 - 1 - 0 = rest.length := by omega
            have hterms :
                (∑ i ∈ Finset.range rest.length,
                    α ^ (rest.length + 1 - 1 - (i + 1)) * (v :: rest).getD (i + 1) 0)
                  = ∑ i ∈ Finset.range rest.length,
                      α ^ (rest.length - 1 - i) * rest.getD i 0 := by
              apply Finset.sum_congr rfl
              intro i _
              have : rest.length + 1 - 1 - (i + 1) = rest.length - 1 - i := by omega
              rw [this]
              rfl
            rw [h0, hsub, hterms, pow_succ]
            ring

/-- C6: the point accumulator with challenge α updates `acc ← acc · α + v` on
every `accumulate` call, and folding contributions `v₀ … v_{k−1}` into a fresh
accumulator (acc = 0) yields `Σᵢ α^(k−1−i) · vᵢ`. -/
theorem c6_point_accumulator_linearity (α : SecureField) (vs : List SecureField) :
    (∀ (acc : PointEvaluationAccumulator) (v : SecureField),
        acc.accumulate v = ⟨acc.random_coeff, acc.accumulation * acc.random_coeff + v⟩)
    ∧ (vs.foldl PointEvaluationAccumulator.accumulate
          (PointEvaluationAccumulator.new α)).accumulation
        = ∑ i ∈ Finset.range vs.length, α ^ (vs.length - 1 - i) * vs.getD i 0 := by
  constructor
  · intro acc v
    rfl
  · have h := accumulate_foldl α 0 vs
    have hnew : PointEvaluationAccumulator.new α
        = (⟨α, 0⟩ : PointEvaluationAccumulator) := rfl
    rw [hnew, h, mul_zero, zero_add]

/-- C8: `ConstantPolynomial(c).eval(interaction_elements, point)` returns `c`
for every interaction-elements mapping and every evaluation point (of any
length, in particular lengths 0 through 8). -/
theorem c8_constant_polynomial_eval (c : SecureField) (ie : InteractionElements)
    (point : List SecureField) :
    (ConstantPolynomial.mk c).eval ie point = c := rfl

/-- C9: the default `ComponentProver::lookup_values` returns the empty
`LookupValues` mapping on every component trace, and its result does not
depend on the trace at all. -/
theorem c9_lookup_values_default {Poly Eval : Type}
    (t t' : ComponentTrace Poly Eval) :
    ComponentProver.lookup_values t = LookupValues.default
    ∧ LookupValues.default = ([] : List (String × SecureField))
    ∧ ComponentProver.lookup_values t = ComponentProver.lookup_values t' :=
  ⟨rfl, rfl, rfl⟩

/-- C10 (amended): `usize_div_ceil(a, 0)` and `usize_safe_div(a, 0)` abort for
every `a`; and for `b ≠ 0`, whenever the intermediate checked sum `a + b`
fits in a 64-bit `usize`, `usize_div_ceil(a, b)` returns (without aborting)
the ceiling of `a / b`, i.e. the least `q` with `a ≤ b·q`. -/
theorem c10_div_helpers :
    (∀ a, usize_div_ceil a 0 = none)
    ∧ (∀ a, usize_safe_div a 0 = none)
    ∧ (∀ a b, b ≠ 0 → a + b < 2 ^ 64 →
        ∃ q, usize_div_ceil a b = some q ∧ a ≤ b * q ∧ b * q < a + b) := by
  refine ⟨fun a => by simp [usize_div_ceil], fun a => by simp [usize_safe_div], ?_⟩
  intro a b hb hov
  refine ⟨(a + b - 1) / b, ?_, ?_, ?_⟩
  · unfold usize_div_ceil
    rw [if_neg hb, if_pos hov]
  · have hd := Nat.div_add_mod (a + b - 1) b
    have hm : (a + b - 1) % b < b := Nat.mod_lt _ (Nat.pos_of_ne_zero hb)
    omega
  · have hd := Nat.div_add_mod (a + b - 1) b
    have hm : (a + b - 1) % b < b := Nat.mod_lt _ (Nat.pos_of_ne_zero hb)
    omega

/-- Witness for C10 at `a = 6`, `b = 4` (expected ceiling 2). -/
theorem c10_div_helpers_witness :
    (4 : ℕ) ≠ 0 ∧ (6 : ℕ) + 4 < 2 ^ 64
    ∧ ∃ q, usize_div_ceil 6 4 = some q ∧ 6 ≤ 4 * q ∧ 4 * q < 6 + 4 :=
  ⟨by norm_num, by norm_num, c10_div_helpers.2.2 6 4 (by norm_num) (by norm_num)⟩

/-- Counterexample for C10 as stated: at `a = 2^64 − 1` (a valid `usize`) and
`b = 2 ≠ 0`, the intermediate checked sum `a + b` overflows and the call
aborts instead of returning the ceiling `2^63`. -/
theorem c10_counterexample : usize_div_ceil (2 ^ 64 - 1) 2 = none := by
  norm_num [usize_div_ceil]

/-! ## Analysis of `bit_reverse16` (claim C5) -/

/-- One round of `bit_reverse16` moves data according to `σP`: output element
`e` of output lane `v` is input element `(σP (v,e)).2` of lane `(σP (v,e)).1`. -/
theorem bit_reverse16_round_spec (d : Fin 16 → PackedBaseField) (q : Fin 16 × Fin 16) :
    bit_reverse16_round d q.1 q.2 = d (σP q).1 (σP q).2 := by
  obtain ⟨v, e⟩ := q
  fin_cases v <;> fin_cases e <;> rfl

set_option maxRecDepth 4000 in
/-- Four rounds of the source-index map realize the full 8-bit reversal of
the composite index `lane ‖ element`. -/
theorem σP_four_val (q : Fin 16 × Fin 16) :
    (σP (σP (σP (σP q)))).1.val = revBits 4 q.2.val
    ∧ (σP (σP (σP (σP q)))).2.val = revBits 4 q.1.val := by
  revert q
  decide

theorem revBits4_lt16 (x : ℕ) : revBits 4 x < 16 := by
  have h := revBits_lt 4 x
  norm_num at h
  exact h

/-- `bit_reverse16` as a permutation: output element `e` of lane `v` is input
element `rev₄ v` of lane `rev₄ e`. -/
theorem bit_reverse16_spec (d : Fin 16 → PackedBaseField) (v e : Fin 16) :
    bit_reverse16 d v e
      = d ⟨revBits 4 e.val, revBits4_lt16 e.val⟩ ⟨revBits 4 v.val, revBits4_lt16 v.val⟩ := by
  have h1 := bit_reverse16_round_spec
    (bit_reverse16_round (bit_reverse16_round (bit_reverse16_round d))) (v, e)
  have h2 := bit_reverse16_round_spec
    (bit_reverse16_round (bit_reverse16_round d)) (σP (v, e))
  have h3 := bit_reverse16_round_spec (bit_reverse16_round d) (σP (σP (v, e)))
  have h4 := bit_reverse16_round_spec d (σP (σP (σP (v, e))))
  have hv := σP_four_val (v, e)
  have e1 : (σP (σP (σP (σP (v, e))))).1
      = (⟨revBits 4 e.val, revBits4_lt16 e.val⟩ : Fin 16) := Fin.ext hv.1
  have e2 : (σP (σP (σP (σP (v, e))))).2
      = (⟨revBits 4 v.val, revBits4_lt16 v.val⟩ : Fin 16) := Fin.ext hv.2
  calc bit_reverse16 d v e
      = bit_reverse16_round (bit_reverse16_round (bit_reverse16_round (bit_reverse16_round d)))
          v e := rfl
    _ = (bit_reverse16_round (bit_reverse16_round (bit_reverse16_round d)))
          (σP (v, e)).1 (σP (v, e)).2 := h1
    _ = (bit_reverse16_round (bit_reverse16_round d))
          (σP (σP (v, e))).1 (σP (σP (v, e))).2 := h2
    _ = (bit_reverse16_round d)
          (σP (σP (σP (v, e)))).1 (σP (σP (σP (v, e)))).2 := h3
    _ = d (σP (σP (σP (σP (v, e))))).1 (σP (σP (σP (σP (v, e))))).2 := h4
    _ = d ⟨revBits 4 e.val, revBits4_lt16 e.val⟩ ⟨revBits 4 v.val, revBits4_lt16 v.val⟩ := by
        rw [e1, e2]

/-- C5: `bit_reverse16` performs the full 8-bit index reversal on the 256
packed elements: for every element index `i < 256` (lane `i / 16`, in-lane
index `i % 16`), the output element at `i` is the input element at
`bitrev₈ i`, the effect of four `abcd:0123 → 0abc:123d` rounds. -/
theorem c5_bit_reverse16_full_reversal (d : Fin 16 → PackedBaseField) (i : ℕ)
    (hi : i < 256) :
    bit_reverse16 d ⟨i / 16, by omega⟩ ⟨i % 16, by omega⟩
      = d ⟨revBits 8 i / 16, by have h := revBits_lt 8 i; norm_num at h; omega⟩
          ⟨revBits 8 i % 16, by omega⟩ := by
  rw [bit_reverse16_spec]
  have hc : revBits 8 i = revBits 4 (i % 16) * 2 ^ 4 + revBits 4 (i / 16) := by
    have h := revBits_concat 4 4 (i / 16) (i % 16) (by omega)
    have hsplit : i / 16 * 2 ^ 4 + i % 16 = i := by omega
    rw [hsplit] at h
    norm_num at h ⊢
    exact h
  have hb1 := revBits4_lt16 (i / 16)
  have hb2 := revBits4_lt16 (i % 16)
  have v1 : revBits 8 i / 16 = revBits 4 (i % 16) := by omega
  have v2 : revBits 8 i % 16 = revBits 4 (i / 16) := by omega
  have e1 : (⟨revBits 8 i / 16, by have h := revBits_lt 8 i; norm_num at h; omega⟩ : Fin 16)
      = (⟨revBits 4 (i % 16), revBits4_lt16 (i % 16)⟩ : Fin 16) := Fin.ext v1
  have e2 : (⟨revBits 8 i % 16, by omega⟩ : Fin 16)
      = (⟨revBits 4 (i / 16), revBits4_lt16 (i / 16)⟩ : Fin 16) := Fin.ext v2
  rw [e1, e2]

/-- Witness for C5 at `i = 1` on the block whose element at composite index
`j` is the value `j`: the output element at index 1 is input element
`bitrev₈(1) = 128`. -/
theorem c5_bit_reverse16_full_reversal_witness :
    (1 : ℕ) < 256
    ∧ bit_reverse16 (fun l e => ⟨16 * l.val + e.val, by omega⟩) ⟨1 / 16, by omega⟩
        ⟨1 % 16, by omega⟩
      = (fun (l e : Fin 16) => (⟨16 * l.val + e.val, by omega⟩ : M31))
          ⟨revBits 8 1 / 16, by have h := revBits_lt 8 1; norm_num at h; omega⟩
          ⟨revBits 8 1 % 16, by omega⟩ :=
  ⟨by norm_num,
    c5_bit_reverse16_full_reversal (fun l e => ⟨16 * l.val + e.val, by omega⟩) 1 (by norm_num)⟩

/-! ## Disjointness of the chunk positions

All positions touched by `bit_reverse_m31` have the form `r + i · S` with
`r < S` (the position of lane `i` of the chunk based at `r`, stride
`S = 2^(2·W_BITS + a_bits)`). -/

theorem chunk_pos_ne {S r r' : ℕ} (hr : r < S) (hr' : r' < S) (hne : r ≠ r') (i j : ℕ) :
    r + i * S ≠ r' + j * S := by
  intro heq
  have hS : 0 < S := by omega
  have h1 : (r + i * S) % S = r := by
    rw [Nat.add_mul_mod_self_right]
    exact Nat.mod_eq_of_lt hr
  have h2 : (r' + j * S) % S = r' := by
    rw [Nat.add_mul_mod_self_right]
    exact Nat.mod_eq_of_lt hr'
  rw [heq, h2] at h1
  exact hne h1.symm

theorem chunk_pos_inj {S base : ℕ} (hS : 0 < S) (i j : Fin 16)
    (h : base + i.val * S = base + j.val * S) : i = j := by
  apply Fin.ext
  have h2 : i.val * S = j.val * S := by omega
  exact Nat.eq_of_mul_eq_mul_right hS h2

/-- A left fold leaves a point unchanged when no step of the fold touches it. -/
theorem foldl_preserve {α : Type} (f : (ℕ → PackedBaseField) → α → (ℕ → PackedBaseField))
    (p : ℕ) :
    ∀ (l : List α) (d : ℕ → PackedBaseField),
      (∀ d' a, a ∈ l → f d' a p = d' p) → (l.foldl f d) p = d p := by
  intro l
  induction l with
  | nil => intro d _; rfl
  | cons a l ih =>
      intro d h
      rw [List.foldl_cons, ih (f d a) fun d' b hb => h d' b (List.mem_cons_of_mem _ hb)]
      exact h d a (List.mem_cons_self _ _)

/-- Reading a written position of a fold of 16 single updates at pairwise
distinct positions yields the written value. -/
theorem foldl_update_extract (pos : Fin 16 → ℕ) (vals : Fin 16 → PackedBaseField)
    (hinj : ∀ i j : Fin 16, pos i = pos j → i = j) (j : Fin 16) :
    ∀ (l : List (Fin 16)), l.Nodup → j ∈ l → ∀ d : ℕ → PackedBaseField,
      (l.foldl (fun d' i => Function.update d' (pos i) (vals i)) d) (pos j) = vals j := by
  intro l
  induction l with
  | nil => intro _ hj; simp at hj
  | cons a l ih =>
      intro hnd hj d
      rw [List.foldl_cons]
      by_cases hmem : j ∈ l
      · exact ih (List.nodup_cons.mp hnd).2 hmem _
      · have hja : j = a := by
          rcases List.mem_cons.mp hj with h | h
          · exact h
          · exact absurd h hmem
        subst hja
        have hnotin : j ∉ l := (List.nodup_cons.mp hnd).1
        have hpres := foldl_preserve
          ((fun d' i => Function.update d' (pos i) (vals i)) :
            (ℕ → PackedBaseField) → Fin 16 → (ℕ → PackedBaseField))
          (pos j) l (Function.update d (pos j) (vals j)) ?_
        · rw [hpres, Function.update_same]
        · intro d' b hb
          apply Function.update_noteq
          intro hcontra
          exact hnotin (hinj j b hcontra ▸ hb)

/-- Reading the two written position families of a fold of 16 double updates
(swap case of the loop body). -/
theorem foldl_update2_extract (posA posB : Fin 16 → ℕ)
    (valsA valsB : Fin 16 → PackedBaseField)
    (hinjA : ∀ i j : Fin 16, posA i = posA j → i = j)
    (hinjB : ∀ i j : Fin 16, posB i = posB j → i = j)
    (hAB : ∀ i j : Fin 16, posA i ≠ posB j) (j : Fin 16) :
    ∀ (l : List (Fin 16)), l.Nodup → j ∈ l → ∀ d : ℕ → PackedBaseField,
      ((l.foldl (fun d' i =>
          Function.update (Function.update d' (posA i) (valsA i)) (posB i) (valsB i)) d)
            (posA j) = valsA j
      ∧ (l.foldl (fun d' i =>
          Function.update (Function.update d' (posA i) (valsA i)) (posB i) (valsB i)) d)
            (posB j) = valsB j) := by
  intro l
  induction l with
  | nil => intro _ hj; simp at hj
  | cons a l ih =>
      intro hnd hj d
      rw [List.foldl_cons]
      by_cases hmem : j ∈ l
      · exact ih (List.nodup_cons.mp hnd).2 hmem _
      · have hja : j = a := by
          rcases List.mem_cons.mp hj with h | h
          · exact h
          · exact absurd h hmem
        subst hja
        have hnotin : j ∉ l := (List.nodup_cons.mp hnd).1
        have hpresA := foldl_preserve
          ((fun d' i =>
              Function.update (Function.update d' (posA i) (valsA i)) (posB i) (valsB i)) :
            (ℕ → PackedBaseField) → Fin 16 → (ℕ → PackedBaseField))
          (posA j) l
          (Function.update (Function.update d (posA j) (valsA j)) (posB j) (valsB j)) (by
            intro d' b hb
            show Function.update (Function.update d' (posA b) (valsA b)) (posB b) (valsB b)
              (posA j) = d' (posA j)
            rw [Function.update_noteq (hAB j b)]
            apply Function.update_noteq
            intro hcontra
            exact hnotin (hinjA j b hcontra ▸ hb))
        have hpresB := foldl_preserve
          ((fun d' i =>
              Function.update (Function.update d' (posA i) (valsA i)) (posB i) (valsB i)) :
            (ℕ → PackedBaseField) → Fin 16 → (ℕ → PackedBaseField))
          (posB j) l
          (Function.update (Function.update d (posA j) (valsA j)) (posB j) (valsB j)) (by
            intro d' b hb
            have hne1 : posB j ≠ posB b := by
              intro hcontra
              exact hnotin (hinjB j b hcontra ▸ hb)
            have hne2 : posB j ≠ posA b := fun hcontra => (hAB b j hcontra.symm).elim
            show Function.update (Function.update d' (posA b) (valsA b)) (posB b) (valsB b)
              (posB j) = d' (posB j)
            rw [Function.update_noteq hne1, Function.update_noteq hne2])
        constructor
        · rw [hpresA, Function.update_noteq (hAB j j), Function.update_same]
        · rw [hpresB, Function.update_same]

/-- `stepN` with its local bindings expanded. -/
theorem stepN_def (a_bits : ℕ) (d : ℕ → PackedBaseField) (t : ℕ × ℕ × ℕ) :
    stepN a_bits d t =
      if idxN a_bits t > revBits (2 * W_BITS + a_bits) (idxN a_bits t) then d
      else if idxN a_bits t = revBits (2 * W_BITS + a_bits) (idxN a_bits t) then
        (List.finRange 16).foldl
          (fun d' i => Function.update d'
            (idxN a_bits t + i.val * 2 ^ (2 * W_BITS + a_bits))
            (bit_reverse16
              (fun i => d (idxN a_bits t + i.val * 2 ^ (2 * W_BITS + a_bits))) i)) d
      else
        (List.finRange 16).foldl
          (fun d' i =>
            Function.update
              (Function.update d'
                (idxN a_bits t + i.val * 2 ^ (2 * W_BITS + a_bits))
                (bit_reverse16
                  (fun i => d (revBits (2 * W_BITS + a_bits) (idxN a_bits t)
                    + i.val * 2 ^ (2 * W_BITS + a_bits))) i))
              (revBits (2 * W_BITS + a_bits) (idxN a_bits t)
                + i.val * 2 ^ (2 * W_BITS + a_bits))
              (bit_reverse16
                (fun i => d (idxN a_bits t + i.val * 2 ^ (2 * W_BITS + a_bits))) i)) d :=
  rfl

/-- A skipped iteration (`idx > idx_rev`) leaves the state unchanged. -/
theorem stepN_skip (a_bits : ℕ) (d : ℕ → PackedBaseField) (t : ℕ × ℕ × ℕ)
    (h : ¬ execIter a_bits t) : stepN a_bits d t = d := by
  rw [stepN_def, if_pos]
  exact Nat.lt_of_not_le h

/-- An iteration that does not hit the residue `q` leaves every lane
`q + v · S` unchanged. -/
theorem stepN_untouched (a_bits : ℕ) (d : ℕ → PackedBaseField) (t : ℕ × ℕ × ℕ)
    (q v : ℕ) (hq : q < 2 ^ (2 * W_BITS + a_bits))
    (hidx : idxN a_bits t < 2 ^ (2 * W_BITS + a_bits))
    (hnot : ¬ hitsQ a_bits q t) :
    stepN a_bits d t (q + v * 2 ^ (2 * W_BITS + a_bits))
      = d (q + v * 2 ^ (2 * W_BITS + a_bits)) := by
  by_cases hexec : execIter a_bits t
  · have hne1 : q ≠ idxN a_bits t := fun hcon => hnot ⟨hexec, Or.inl hcon⟩
    have hne2 : q ≠ revBits (2 * W_BITS + a_bits) (idxN a_bits t) :=
      fun hcon => hnot ⟨hexec, Or.inr hcon⟩
    have hrevlt : revBits (2 * W_BITS + a_bits) (idxN a_bits t)
        < 2 ^ (2 * W_BITS + a_bits) := revBits_lt _ _
    rw [stepN_def, if_neg (Nat.not_lt.mpr hexec)]
    by_cases hpal : idxN a_bits t = revBits (2 * W_BITS + a_bits) (idxN a_bits t)
    · rw [if_pos hpal]
      apply foldl_preserve
      intro d' b _
      show Function.update d' (idxN a_bits t + b.val * 2 ^ (2 * W_BITS + a_bits)) _
        (q + v * 2 ^ (2 * W_BITS + a_bits)) = d' (q + v * 2 ^ (2 * W_BITS + a_bits))
      exact Function.update_noteq (chunk_pos_ne hq hidx hne1 v b.val) _ _
    · rw [if_neg hpal]
      apply foldl_preserve
      intro d' b _
      show Function.update
          (Function.update d' (idxN a_bits t + b.val * 2 ^ (2 * W_BITS + a_bits)) _)
          (revBits (2 * W_BITS + a_bits) (idxN a_bits t)
            + b.val * 2 ^ (2 * W_BITS + a_bits)) _
          (q + v * 2 ^ (2 * W_BITS + a_bits)) = d' (q + v * 2 ^ (2 * W_BITS + a_bits))
      rw [Function.update_noteq (chunk_pos_ne hq hrevlt hne2 v b.val)]
      exact Function.update_noteq (chunk_pos_ne hq hidx hne1 v b.val) _ _
  · rw [stepN_skip _ _ _ hexec]

/-- An iteration that hits the residue `q` writes into lane `q + v · S` the
lane `v` of the bit-reversed chunk based at `rev q`. -/
theorem stepN_hit (a_bits : ℕ) (d : ℕ → PackedBaseField) (t : ℕ × ℕ × ℕ)
    (q : ℕ) (hq : q < 2 ^ (2 * W_BITS + a_bits))
    (hidx : idxN a_bits t < 2 ^ (2 * W_BITS + a_bits))
    (hhit : hitsQ a_bits q t) (v : Fin 16) :
    stepN a_bits d t (q + v.val * 2 ^ (2 * W_BITS + a_bits))
      = bit_reverse16
          (fun i => d (revBits (2 * W_BITS + a_bits) q
            + i.val * 2 ^ (2 * W_BITS + a_bits))) v := by
  obtain ⟨hexec, hor⟩ := hhit
  have hS : (0:ℕ) < 2 ^ (2 * W_BITS + a_bits) := pow_pos (by norm_num) _
  have hrevlt : revBits (2 * W_BITS + a_bits) (idxN a_bits t)
      < 2 ^ (2 * W_BITS + a_bits) := revBits_lt _ _
  rw [stepN_def, if_neg (Nat.not_lt.mpr hexec)]
  by_cases hpal : idxN a_bits t = revBits (2 * W_BITS + a_bits) (idxN a_bits t)
  · rw [if_pos hpal]
    have hq_idx : q = idxN a_bits t := by
      rcases hor with h | h
      · exact h
      · rw [h, ← hpal]
    have hrevq : revBits (2 * W_BITS + a_bits) q = idxN a_bits t := by
      rw [hq_idx, ← hpal]
    rw [hrevq, hq_idx]
    exact foldl_update_extract
      (fun i => idxN a_bits t + i.val * 2 ^ (2 * W_BITS + a_bits))
      (fun i => bit_reverse16
        (fun i' => d (idxN a_bits t + i'.val * 2 ^ (2 * W_BITS + a_bits))) i)
      (chunk_pos_inj hS) v (List.finRange 16) (List.nodup_finRange 16)
      (List.mem_finRange v) d
  · rw [if_neg hpal]
    have hext := foldl_update2_extract
      (fun i => idxN a_bits t + i.val * 2 ^ (2 * W_BITS + a_bits))
      (fun i => revBits (2 * W_BITS + a_bits) (idxN a_bits t)
        + i.val * 2 ^ (2 * W_BITS + a_bits))
      (fun i => bit_reverse16
        (fun i' => d (revBits (2 * W_BITS + a_bits) (idxN a_bits t)
          + i'.val * 2 ^ (2 * W_BITS + a_bits))) i)
      (fun i => bit_reverse16
        (fun i' => d (idxN a_bits t + i'.val * 2 ^ (2 * W_BITS + a_bits))) i)
      (chunk_pos_inj hS) (chunk_pos_inj hS)
      (fun i j => chunk_pos_ne hidx hrevlt hpal i.val j.val)
      v (List.finRange 16) (List.nodup_finRange 16) (List.mem_finRange v) d
    rcases hor with hc1 | hc2
    · rw [hc1]
      exact hext.1
    · have hinv : revBits (2 * W_BITS + a_bits)
          (revBits (2 * W_BITS + a_bits) (idxN a_bits t)) = idxN a_bits t :=
        revBits_involutive _ _ hidx
      rw [hc2, hinv]
      exact hext.2

/-- Folding the loop body over iterations none of which hits the residue `q`
leaves every lane `q + v · S` unchanged. -/
theorem foldl_stepN_untouched (a_bits q v : ℕ) (hq : q < 2 ^ (2 * W_BITS + a_bits)) :
    ∀ (L : List (ℕ × ℕ × ℕ)) (d : ℕ → PackedBaseField),
      (∀ t ∈ L, idxN a_bits t < 2 ^ (2 * W_BITS + a_bits)) →
      (∀ t ∈ L, ¬ hitsQ a_bits q t) →
      (L.foldl (stepN a_bits) d) (q + v * 2 ^ (2 * W_BITS + a_bits))
        = d (q + v * 2 ^ (2 * W_BITS + a_bits)) := by
  intro L
  induction L with
  | nil => intro d _ _; rfl
  | cons t L ih =>
      intro d hbound hnone
      rw [List.foldl_cons,
        ih (stepN a_bits d t)
          (fun t' ht' => hbound t' (List.mem_cons_of_mem _ ht'))
          (fun t' ht' => hnone t' (List.mem_cons_of_mem _ ht'))]
      exact stepN_untouched a_bits d t q v hq
        (hbound t (List.mem_cons_self _ _)) (hnone t (List.mem_cons_self _ _))

/-- Folding the loop body over a list of iterations with pairwise distinct
indices, one of which hits the residue `q`, writes into lane `q + v · S` the
lane `v` of the bit-reversed chunk based at `rev q` of the initial state. -/
theorem foldl_stepN_hit (a_bits q : ℕ) (v : Fin 16)
    (hq : q < 2 ^ (2 * W_BITS + a_bits)) :
    ∀ (L : List (ℕ × ℕ × ℕ)) (d : ℕ → PackedBaseField),
      (∀ t ∈ L, idxN a_bits t < 2 ^ (2 * W_BITS + a_bits)) →
      (L.map (idxN a_bits)).Nodup →
      (∃ t ∈ L, hitsQ a_bits q t) →
      (L.foldl (stepN a_bits) d) (q + v.val * 2 ^ (2 * W_BITS + a_bits))
        = bit_reverse16
            (fun i => d (revBits (2 * W_BITS + a_bits) q
              + i.val * 2 ^ (2 * W_BITS + a_bits))) v := by
  intro L
  induction L with
  | nil =>
      intro d _ _ hex
      obtain ⟨t, ht, _⟩ := hex
      simp at ht
  | cons t L ih =>
      intro d hbound hnodup hex
      have hbound' : ∀ t' ∈ L, idxN a_bits t' < 2 ^ (2 * W_BITS + a_bits) :=
        fun t' ht' => hbound t' (List.mem_cons_of_mem _ ht')
      have hnodup' : (L.map (idxN a_bits)).Nodup := by
        rw [List.map_cons, List.nodup_cons] at hnodup
        exact hnodup.2
      have hheadnot : idxN a_bits t ∉ L.map (idxN a_bits) := by
        rw [List.map_cons, List.nodup_cons] at hnodup
        exact hnodup.1
      have hidx_t := hbound t (List.mem_cons_self _ _)
      have hrevlt : revBits (2 * W_BITS + a_bits) (idxN a_bits t)
          < 2 ^ (2 * W_BITS + a_bits) := revBits_lt _ _
      rw [List.foldl_cons]
      by_cases hhit : hitsQ a_bits q t
      · have hnone : ∀ t' ∈ L, ¬ hitsQ a_bits q t' := by
          intro t' ht' hhit'
          obtain ⟨hex1, hor1⟩ := hhit
          obtain ⟨hex2, hor2⟩ := hhit'
          have hidx_t' := hbound' t' ht'
          have hinv_t : revBits (2 * W_BITS + a_bits)
              (revBits (2 * W_BITS + a_bits) (idxN a_bits t)) = idxN a_bits t :=
            revBits_involutive _ _ hidx_t
          have hinv_t' : revBits (2 * W_BITS + a_bits)
              (revBits (2 * W_BITS + a_bits) (idxN a_bits t')) = idxN a_bits t' :=
            revBits_involutive _ _ hidx_t'
          have heq : idxN a_bits t = idxN a_bits t' := by
            rcases hor1 with h1 | h1 <;> rcases hor2 with h2 | h2
            · rw [← h1, ← h2]
            · -- q = idx t and q = rev (idx t'): idx t = rev (idx t'), so
              -- rev (idx t) = idx t'; exec t: idx t ≤ rev (idx t) = idx t';
              -- exec t': idx t' ≤ rev (idx t') = idx t; so equal.
              have e1 : idxN a_bits t = revBits (2 * W_BITS + a_bits) (idxN a_bits t') := by
                rw [← h1, ← h2]
              have e2 : revBits (2 * W_BITS + a_bits) (idxN a_bits t) = idxN a_bits t' := by
                rw [e1, hinv_t']
              have hle1 := hex1
              have hle2 := hex2
              unfold execIter at hle1 hle2
              omega
            · have e1 : revBits (2 * W_BITS + a_bits) (idxN a_bits t) = idxN a_bits t' := by
                rw [← h2, ← h1]
              have e2 : idxN a_bits t = revBits (2 * W_BITS + a_bits) (idxN a_bits t') := by
                rw [← e1, hinv_t]
              have hle1 := hex1
              have hle2 := hex2
              unfold execIter at hle1 hle2
              omega
            · rw [← hinv_t, ← h1, h2, hinv_t']
          exact hheadnot (heq ▸ List.mem_map_of_mem (idxN a_bits) ht')
        rw [foldl_stepN_untouched a_bits q v.val hq L (stepN a_bits d t) hbound' hnone]
        exact stepN_hit a_bits d t q hq hidx_t hhit v
      · obtain ⟨t', ht', hhit'⟩ := hex
        have ht'L : t' ∈ L := by
          rcases List.mem_cons.mp ht' with h | h
          · exact absurd (h ▸ hhit') hhit
          · exact h
        rw [ih (stepN a_bits d t) hbound' hnodup' ⟨t', ht'L, hhit'⟩]
        have hchunks : (fun i : Fin 16 => stepN a_bits d t
            (revBits (2 * W_BITS + a_bits) q + i.val * 2 ^ (2 * W_BITS + a_bits)))
            = fun i : Fin 16 =>
                d (revBits (2 * W_BITS + a_bits) q + i.val * 2 ^ (2 * W_BITS + a_bits)) := by
          funext i
          apply stepN_untouched a_bits d t _ i.val (revBits_lt _ _) hidx_t
          intro ⟨hexec2, hor2⟩
          apply hhit
          refine ⟨hexec2, ?_⟩
          have hinv_q : revBits (2 * W_BITS + a_bits)
              (revBits (2 * W_BITS + a_bits) q) = q := revBits_involutive _ _ hq
          rcases hor2 with h | h
          · right
            rw [← hinv_q, h]
          · left
            rw [← hinv_q, h, revBits_involutive _ _ hidx_t]
        rw [hchunks]

/-! ## The loop triples of `bit_reverse_m31` -/

/-- For `w_l < 8`, `w_l.reverse_bits() >> (u32::BITS − W_BITS)` is the 3-bit
reversal of `w_l`. -/
theorem u32rev_shift3 (w : ℕ) (hw : w < 8) :
    u32_reverse_bits w >>> (32 - W_BITS) = revBits 3 w := by
  interval_cases w <;> decide

theorem mem_iters (a_bits a w_l w_h : ℕ) :
    (a, w_l, w_h) ∈ iters a_bits ↔ a < 2 ^ a_bits ∧ w_l < 8 ∧ w_h ≤ revBits 3 w_l := by
  have h8 : (1 : ℕ) <<< W_BITS = 8 := rfl
  have hpow : (1 : ℕ) <<< a_bits = 2 ^ a_bits := by
    rw [Nat.shiftLeft_eq, one_mul]
  unfold iters
  simp only [List.mem_flatMap, List.mem_map, List.mem_range]
  constructor
  · rintro ⟨a', ha', w_l', hw_l', w_h', hw_h', heq⟩
    rw [Prod.mk.injEq, Prod.mk.injEq] at heq
    obtain ⟨e1, e2, e3⟩ := heq
    rw [hpow, e1] at ha'
    rw [h8, e2] at hw_l'
    rw [e2, e3, u32rev_shift3 w_l hw_l'] at hw_h'
    exact ⟨ha', hw_l', by omega⟩
  · rintro ⟨h1, h2, h3⟩
    refine ⟨a, by rw [hpow]; exact h1, w_l, by rw [h8]; exact h2, w_h, ?_, rfl⟩
    rw [u32rev_shift3 w_l h2]
    omega

/-- Digit extraction from the loop index. -/
theorem idxN_components (a_bits a w_l w_h : ℕ) (ha : a < 2 ^ a_bits) (hwl : w_l < 8) :
    idxN a_bits (a, w_l, w_h) % 8 = w_l
    ∧ idxN a_bits (a, w_l, w_h) / 8 % 2 ^ a_bits = a
    ∧ idxN a_bits (a, w_l, w_h) / 8 / 2 ^ a_bits = w_h := by
  have hA : (0:ℕ) < 2 ^ a_bits := pow_pos (by norm_num) _
  have h8 : (2:ℕ) ^ W_BITS = 8 := rfl
  have hE : idxN a_bits (a, w_l, w_h) = (w_h * 2 ^ a_bits + a) * 8 + w_l := by
    rw [idxN_eq a_bits a w_l w_h ha (by rw [h8]; exact hwl), h8]
  have hdiv8 : idxN a_bits (a, w_l, w_h) / 8 = w_h * 2 ^ a_bits + a := by
    rw [hE, mul_comm _ 8, Nat.mul_add_div (by norm_num), Nat.div_eq_of_lt hwl, add_zero]
  have hmod8 : idxN a_bits (a, w_l, w_h) % 8 = w_l := by
    rw [hE, mul_comm _ 8, Nat.mul_add_mod, Nat.mod_eq_of_lt hwl]
  have hmodA : (w_h * 2 ^ a_bits + a) % 2 ^ a_bits = a := by
    rw [mul_comm, Nat.mul_add_mod, Nat.mod_eq_of_lt ha]
  have hdivA : (w_h * 2 ^ a_bits + a) / 2 ^ a_bits = w_h := by
    rw [mul_comm, Nat.mul_add_div hA, Nat.div_eq_of_lt ha, add_zero]
  exact ⟨hmod8, by rw [hdiv8, hmodA], by rw [hdiv8, hdivA]⟩

theorem idxN_inj (a_bits : ℕ) {a w_l w_h a' w_l' w_h' : ℕ}
    (ha : a < 2 ^ a_bits) (hwl : w_l < 8) (ha' : a' < 2 ^ a_bits) (hwl' : w_l' < 8)
    (h : idxN a_bits (a, w_l, w_h) = idxN a_bits (a', w_l', w_h')) :
    a = a' ∧ w_l = w_l' ∧ w_h = w_h' := by
  obtain ⟨m1, m2, m3⟩ := idxN_components a_bits a w_l w_h ha hwl
  obtain ⟨m1', m2', m3'⟩ := idxN_components a_bits a' w_l' w_h' ha' hwl'
  rw [h] at m1 m2 m3
  exact ⟨by rw [← m2, m2'], by rw [← m1, m1'], by rw [← m3, m3']⟩

/-- Every loop index is below `2^(2·W_BITS + a_bits)`. -/
theorem iters_idx_lt (a_bits : ℕ) (t : ℕ × ℕ × ℕ) (ht : t ∈ iters a_bits) :
    idxN a_bits t < 2 ^ (2 * W_BITS + a_bits) := by
  obtain ⟨a, w_l, w_h⟩ := t
  obtain ⟨h1, h2, h3⟩ := (mem_iters a_bits a w_l w_h).mp ht
  have h8 : (2:ℕ) ^ W_BITS = 8 := rfl
  have hrev3 : revBits 3 w_l < 8 := by
    have h := revBits_lt 3 w_l
    norm_num at h
    exact h
  have hE : idxN a_bits (a, w_l, w_h) = (w_h * 2 ^ a_bits + a) * 8 + w_l := by
    rw [idxN_eq a_bits a w_l w_h h1 (by rw [h8]; exact h2), h8]
  have hpow : (2:ℕ) ^ (2 * W_BITS + a_bits) = 64 * 2 ^ a_bits := by
    have : 2 * W_BITS + a_bits = 6 + a_bits := by norm_num [W_BITS]
    rw [this, pow_add]
    norm_num
  have hwh : w_h ≤ 7 := by omega
  have hmul : w_h * 2 ^ a_bits ≤ 7 * 2 ^ a_bits := Nat.mul_le_mul_right _ hwh
  rw [hE, hpow]
  have hA : (0:ℕ) < 2 ^ a_bits := pow_pos (by norm_num) _
  generalize hX : (2:ℕ) ^ a_bits = X at h1 hmul hA ⊢
  generalize hB : w_h * X = B at hmul ⊢
  omega

/-- The `u32` index computation agrees with its untruncated value whenever
`a_bits ≤ 26`: every intermediate shift result then stays below `2^32`. -/
theorem idxOf_eq_idxN (a_bits a w_l w_h : ℕ) (hab : a_bits ≤ 26)
    (ha : a < 2 ^ a_bits) (hwh : w_h < 8) :
    idxOf a_bits (a, w_l, w_h) = idxN a_bits (a, w_l, w_h) := by
  have hp : (0:ℕ) < 2 ^ a_bits := pow_pos (by norm_num) _
  have h1 : w_h <<< a_bits < 2 ^ (a_bits + 3) := by
    rw [Nat.shiftLeft_eq, pow_add]
    have hm : w_h * 2 ^ a_bits ≤ 7 * 2 ^ a_bits := Nat.mul_le_mul_right _ (by omega)
    have h8 : (2:ℕ) ^ 3 = 8 := by norm_num
    rw [h8]
    generalize hX : (2:ℕ) ^ a_bits = X at hm hp ⊢
    generalize hB : w_h * X = B at hm ⊢
    omega
  have h1m : (w_h <<< a_bits) % 2 ^ 32 = w_h <<< a_bits :=
    Nat.mod_eq_of_lt (lt_of_lt_of_le h1 (Nat.pow_le_pow_right (by norm_num) (by omega)))
  have h2 : (w_h <<< a_bits) ||| a < 2 ^ (a_bits + 3) :=
    Nat.or_lt_two_pow h1
      (lt_of_lt_of_le ha (Nat.pow_le_pow_right (by norm_num) (by omega)))
  have h3 : ((w_h <<< a_bits) ||| a) <<< W_BITS < 2 ^ (a_bits + 6) := by
    rw [Nat.shiftLeft_eq]
    have hW : (2:ℕ) ^ W_BITS = 8 := rfl
    rw [hW]
    have hEq : (2:ℕ) ^ (a_bits + 6) = 2 ^ (a_bits + 3) * 8 := by
      rw [pow_add, pow_add]
      ring
    rw [hEq]
    exact mul_lt_mul_of_pos_right h2 (by norm_num)
  have h3m : (((w_h <<< a_bits) ||| a) <<< W_BITS) % 2 ^ 32
      = ((w_h <<< a_bits) ||| a) <<< W_BITS :=
    Nat.mod_eq_of_lt (lt_of_lt_of_le h3 (Nat.pow_le_pow_right (by norm_num) (by omega)))
  show ((((w_h <<< a_bits) % 2 ^ 32) ||| a) <<< W_BITS) % 2 ^ 32 ||| w_l
    = (((w_h <<< a_bits) ||| a) <<< W_BITS) ||| w_l
  rw [h1m, h3m]

/-- The `u32` loop index of every loop triple is below `2^(2·W_BITS + a_bits)`:
below `a_bits = 27` it equals the untruncated value, and from `a_bits = 27` on
it is below `2^32 ≤ 2^(2·W_BITS + a_bits)`. -/
theorem iters_idxOf_lt (a_bits : ℕ) (t : ℕ × ℕ × ℕ) (ht : t ∈ iters a_bits) :
    idxOf a_bits t < 2 ^ (2 * W_BITS + a_bits) := by
  obtain ⟨a, w_l, w_h⟩ := t
  obtain ⟨h1, h2, h3⟩ := (mem_iters a_bits a w_l w_h).mp ht
  have hwh : w_h < 8 := by
    have hr := revBits_lt 3 w_l
    norm_num at hr
    omega
  by_cases hab : a_bits ≤ 26
  · rw [idxOf_eq_idxN a_bits a w_l w_h hab h1 hwh]
    exact iters_idx_lt a_bits _ ht
  · have hu : idxOf a_bits (a, w_l, w_h) < 2 ^ 32 := by
      show ((((w_h <<< a_bits) % 2 ^ 32) ||| a) <<< W_BITS) % 2 ^ 32 ||| w_l < 2 ^ 32
      exact Nat.or_lt_two_pow (Nat.mod_lt _ (by norm_num)) (by omega)
    have hle : (2:ℕ) ^ 32 ≤ 2 ^ (2 * W_BITS + a_bits) :=
      Nat.pow_le_pow_right (by norm_num) (by simp only [W_BITS]; omega)
    omega

/-- Pairwise property of a flat map, from pairwise properties of the pieces. -/
theorem pairwise_flatMap_of {α β : Type} {R : β → β → Prop} :
    ∀ (l : List α) (f : α → List β),
      (∀ a ∈ l, (f a).Pairwise R) →
      (l.Pairwise fun a a' => ∀ b ∈ f a, ∀ b' ∈ f a', R b b') →
      (l.flatMap f).Pairwise R := by
  intro l f
  induction l with
  | nil => intro _ _; simp
  | cons a l ih =>
      intro h1 h2
      rw [List.flatMap_cons, List.pairwise_append]
      rw [List.pairwise_cons] at h2
      refine ⟨h1 a (List.mem_cons_self _ _),
        ih (fun x hx => h1 x (List.mem_cons_of_mem _ hx)) h2.2, ?_⟩
      intro b hb b' hb'
      rw [List.mem_flatMap] at hb'
      obtain ⟨a', ha', hb'2⟩ := hb'
      exact h2.1 a' ha' b hb b' hb'2

/-- The loop indices of the triples of `iters` are pairwise distinct. -/
theorem iters_idx_nodup (a_bits : ℕ) : ((iters a_bits).map (idxN a_bits)).Nodup := by
  have hsh : (1:ℕ) <<< a_bits = 2 ^ a_bits := by rw [Nat.shiftLeft_eq, one_mul]
  have h8 : (1:ℕ) <<< W_BITS = 8 := rfl
  have hpairwise : (iters a_bits).Pairwise
      fun t t' => idxN a_bits t ≠ idxN a_bits t' := by
    unfold iters
    apply pairwise_flatMap_of
    · intro a ha
      rw [List.mem_range, hsh] at ha
      apply pairwise_flatMap_of
      · intro w_l hwl
        rw [List.mem_range, h8] at hwl
        rw [List.pairwise_map]
        refine List.Pairwise.imp ?_ (List.pairwise_lt_range _)
        intro wh wh' hlt heq
        obtain ⟨_, _, e3⟩ := idxN_inj a_bits ha hwl ha hwl heq
        omega
      · refine List.Pairwise.imp_of_mem ?_ (List.pairwise_lt_range _)
        intro wl wl' hwl hwl' hlt b hb b' hb'
        rw [List.mem_range, h8] at hwl hwl'
        simp only [List.mem_map, List.mem_range] at hb hb'
        obtain ⟨wh, _, rfl⟩ := hb
        obtain ⟨wh', _, rfl⟩ := hb'
        intro heq
        obtain ⟨_, e2, _⟩ := idxN_inj a_bits ha hwl ha hwl' heq
        omega
    · refine List.Pairwise.imp_of_mem ?_ (List.pairwise_lt_range _)
      intro a a' ha ha' hlt b hb b' hb'
      rw [List.mem_range, hsh] at ha ha'
      simp only [List.mem_flatMap, List.mem_map, List.mem_range] at hb hb'
      obtain ⟨wl, hwl, wh, _, rfl⟩ := hb
      obtain ⟨wl', hwl', wh', _, rfl⟩ := hb'
      rw [h8] at hwl hwl'
      intro heq
      obtain ⟨e1, _, _⟩ := idxN_inj a_bits ha hwl ha' hwl' heq
      omega
  exact (List.pairwise_map).mpr hpairwise

/-- Every residue `m ≤ rev m` is the index of some (executed) loop triple. -/
theorem iters_cover_aux (a_bits m : ℕ) (hm : m < 2 ^ (2 * W_BITS + a_bits))
    (hexec : m ≤ revBits (2 * W_BITS + a_bits) m) :
    ∃ t ∈ iters a_bits, execIter a_bits t ∧ idxN a_bits t = m := by
  have hA : (0:ℕ) < 2 ^ a_bits := pow_pos (by norm_num) _
  have h8 : (2:ℕ) ^ W_BITS = 8 := rfl
  have hw8 : m % 8 < 8 := by omega
  have haA : m / 8 % 2 ^ a_bits < 2 ^ a_bits := Nat.mod_lt _ hA
  -- the loop index reconstructs m
  have hrec : idxN a_bits (m / 8 % 2 ^ a_bits, m % 8, m / 8 / 2 ^ a_bits) = m := by
    rw [idxN_eq a_bits _ _ _ haA (by rw [h8]; exact hw8), h8]
    have h1 := Nat.div_add_mod (m / 8) (2 ^ a_bits)
    have h2 := Nat.div_add_mod m 8
    have h3 : m / 8 / 2 ^ a_bits * 2 ^ a_bits + m / 8 % 2 ^ a_bits = m / 8 := by
      rw [mul_comm]
      exact h1
    rw [h3]
    omega
  -- the top three bits of m within 2·W_BITS + a_bits bits
  have hexp : 2 * W_BITS + a_bits = 3 + (3 + a_bits) := by
    simp [W_BITS]
    omega
  have hsplit : m / 8 * 2 ^ 3 + m % 8 = m := by
    have := Nat.div_add_mod m 8
    norm_num
    omega
  have hlo : m % 8 < 2 ^ 3 := by
    have h23 : (2:ℕ) ^ 3 = 8 := by norm_num
    omega
  have hconc : revBits (2 * W_BITS + a_bits) m
      = revBits 3 (m % 8) * 2 ^ (3 + a_bits) + revBits (3 + a_bits) (m / 8) := by
    have hcc := revBits_concat 3 (3 + a_bits) (m / 8) (m % 8) hlo
    rw [hsplit] at hcc
    rw [hexp]
    exact hcc
  have hrevlt : revBits (3 + a_bits) (m / 8) < 2 ^ (3 + a_bits) := revBits_lt _ _
  have hdivrev : revBits (2 * W_BITS + a_bits) m / 2 ^ (3 + a_bits) = revBits 3 (m % 8) := by
    rw [hconc, mul_comm (revBits 3 (m % 8)) _, Nat.mul_add_div (pow_pos (by norm_num) _),
      Nat.div_eq_of_lt hrevlt, add_zero]
  have hdivm : m / 2 ^ (3 + a_bits) = m / 8 / 2 ^ a_bits := by
    rw [Nat.div_div_eq_div_mul]
    congr 1
    rw [pow_add]
    norm_num
  have hmono : m / 2 ^ (3 + a_bits)
      ≤ revBits (2 * W_BITS + a_bits) m / 2 ^ (3 + a_bits) :=
    Nat.div_le_div_right hexec
  have hwh : m / 8 / 2 ^ a_bits ≤ revBits 3 (m % 8) := by
    rw [← hdivm, ← hdivrev]
    exact hmono
  refine ⟨(m / 8 % 2 ^ a_bits, m % 8, m / 8 / 2 ^ a_bits), ?_, ?_, hrec⟩
  · exact (mem_iters a_bits _ _ _).mpr ⟨haA, hw8, hwh⟩
  · unfold execIter
    rw [hrec]
    exact hexec

/-- Every residue `q < 2^(2·W_BITS + a_bits)` is hit by some loop triple. -/
theorem iters_cover (a_bits q : ℕ) (hq : q < 2 ^ (2 * W_BITS + a_bits)) :
    ∃ t ∈ iters a_bits, hitsQ a_bits q t := by
  have hrq : revBits (2 * W_BITS + a_bits) q < 2 ^ (2 * W_BITS + a_bits) := revBits_lt _ _
  have hinvq : revBits (2 * W_BITS + a_bits) (revBits (2 * W_BITS + a_bits) q) = q :=
    revBits_involutive _ _ hq
  obtain hle | hlt := le_or_lt q (revBits (2 * W_BITS + a_bits) q)
  · obtain ⟨t, ht, hex, hidx⟩ := iters_cover_aux a_bits q hq hle
    exact ⟨t, ht, hex, Or.inl hidx.symm⟩
  · obtain ⟨t, ht, hex, hidx⟩ := iters_cover_aux a_bits
      (revBits (2 * W_BITS + a_bits) q) hrq (by rw [hinvq]; omega)
    refine ⟨t, ht, hex, Or.inr ?_⟩
    rw [hidx, hinvq]

/-- `step` agrees with its normalized restatement on every loop triple when
`log_size = a_bits + MIN_LOG_SIZE` and `a_bits ≤ 26` (so that the `u32` index
computation does not truncate). -/
theorem step_eq_stepN (log_size a_bits : ℕ) (h : log_size = a_bits + MIN_LOG_SIZE)
    (hab : a_bits ≤ 26) (d : ℕ → PackedBaseField) (t : ℕ × ℕ × ℕ)
    (ht : t ∈ iters a_bits) :
    step log_size a_bits d t = stepN a_bits d t := by
  obtain ⟨a, w_l, w_h⟩ := t
  obtain ⟨h1, h2, h3⟩ := (mem_iters a_bits a w_l w_h).mp ht
  have hwh : w_h < 8 := by
    have hr := revBits_lt 3 w_l
    norm_num at hr
    omega
  have hnb : log_size - VEC_BITS = 2 * W_BITS + a_bits := by
    simp only [MIN_LOG_SIZE, VEC_BITS, W_BITS] at h ⊢
    omega
  unfold step stepN bit_reverse_index
  rw [hnb, idxOf_eq_idxN a_bits a w_l w_h hab h1 hwh]
  simp only [Nat.shiftLeft_eq]

/-- Main characterization of `bit_reverse_m31` on a valid input with
`n ≤ 36` (so that the `u32` index computation does not truncate and the loop
bound shift does not overflow): the call succeeds and output element `e` of
output lane `p` is the input element at the bit-reversed composite element
index (over `n + 4` bits). -/
theorem bit_reverse_m31_master (n : ℕ) (data : List PackedBaseField)
    (hlen : data.length = 2 ^ n) (hn : MIN_LOG_SIZE ≤ n) (hn36 : n ≤ 36) :
    ∃ out, bit_reverse_m31 data = some out ∧ out.length = 2 ^ n ∧
      ∀ p : ℕ, p < 2 ^ n → ∀ e : Fin 16,
        out.getD p default e
          = data.getD (revBits (n + 4) (16 * p + e.val) / 16) default
              ⟨revBits (n + 4) (16 * p + e.val) % 16, by omega⟩ := by
  have h10 : 10 ≤ n := by
    simp only [MIN_LOG_SIZE, VEC_BITS, W_BITS] at hn
    omega
  have hlog : data.length.log2 = n := by
    rw [hlen, Nat.log2_eq_log_two, Nat.log_pow (by norm_num)]
  have hpw : is_power_of_two data.length = true := by
    unfold is_power_of_two
    rw [hlog, hlen]
    simp
  have hrel : n = (n - 2 * W_BITS - VEC_BITS) + MIN_LOG_SIZE := by
    simp only [MIN_LOG_SIZE, VEC_BITS, W_BITS]
    omega
  have hab26 : n - 2 * W_BITS - VEC_BITS ≤ 26 := by
    simp only [W_BITS, VEC_BITS]
    omega
  have hfoldeq : (iters (n - 2 * W_BITS - VEC_BITS)).foldl
        (step n (n - 2 * W_BITS - VEC_BITS)) (fun p => data.getD p default)
      = (iters (n - 2 * W_BITS - VEC_BITS)).foldl
          (stepN (n - 2 * W_BITS - VEC_BITS)) (fun p => data.getD p default) :=
    List.foldl_ext _ _ _ fun d t ht =>
      step_eq_stepN n (n - 2 * W_BITS - VEC_BITS) hrel hab26 d t ht
  have hbrm : bit_reverse_m31 data
      = some ((List.range data.length).map
          ((iters (n - 2 * W_BITS - VEC_BITS)).foldl
            (stepN (n - 2 * W_BITS - VEC_BITS)) fun p => data.getD p default)) := by
    simp only [bit_reverse_m31]
    rw [if_neg (fun hcon => hcon hpw), if_neg (by rw [hlog]; exact Nat.not_lt.mpr hn),
      hlog, if_neg (show ¬ 32 ≤ n - 2 * W_BITS - VEC_BITS by
        simp only [W_BITS, VEC_BITS]
        omega),
      hfoldeq]
  refine ⟨_, hbrm, by simp [hlen], ?_⟩
  intro p hp e
  have hppos : (0:ℕ) < 2 ^ (2 * W_BITS + (n - 2 * W_BITS - VEC_BITS)) :=
    pow_pos (by norm_num) _
  have hEn : 2 * W_BITS + (n - 2 * W_BITS - VEC_BITS) + 4 = n := by
    simp only [VEC_BITS, W_BITS]
    omega
  have hpow16 : (2:ℕ) ^ n = 2 ^ (2 * W_BITS + (n - 2 * W_BITS - VEC_BITS)) * 16 := by
    have h := pow_add 2 (2 * W_BITS + (n - 2 * W_BITS - VEC_BITS)) 4
    rw [hEn] at h
    rw [h]
    norm_num
  have hq : p % 2 ^ (2 * W_BITS + (n - 2 * W_BITS - VEC_BITS))
      < 2 ^ (2 * W_BITS + (n - 2 * W_BITS - VEC_BITS)) := Nat.mod_lt _ hppos
  have hv : p / 2 ^ (2 * W_BITS + (n - 2 * W_BITS - VEC_BITS)) < 16 := by
    rw [Nat.div_lt_iff_lt_mul hppos]
    rw [hpow16] at hp
    omega
  have hgetd : ((List.range data.length).map
      ((iters (n - 2 * W_BITS - VEC_BITS)).foldl
        (stepN (n - 2 * W_BITS - VEC_BITS)) fun p => data.getD p default)).getD p default
      = (iters (n - 2 * W_BITS - VEC_BITS)).foldl
          (stepN (n - 2 * W_BITS - VEC_BITS)) (fun p => data.getD p default) p := by
    have hplen : p < data.length := by rw [hlen]; exact hp
    rw [List.getD_eq_getElem _ _ (by simpa using hplen), List.getElem_map, List.getElem_range]
  rw [hgetd]
  have hdm : p % 2 ^ (2 * W_BITS + (n - 2 * W_BITS - VEC_BITS))
      + p / 2 ^ (2 * W_BITS + (n - 2 * W_BITS - VEC_BITS))
        * 2 ^ (2 * W_BITS + (n - 2 * W_BITS - VEC_BITS)) = p := by
    rw [add_comm, mul_comm]
    exact Nat.div_add_mod p _
  have hfold := foldl_stepN_hit (n - 2 * W_BITS - VEC_BITS)
    (p % 2 ^ (2 * W_BITS + (n - 2 * W_BITS - VEC_BITS)))
    ⟨p / 2 ^ (2 * W_BITS + (n - 2 * W_BITS - VEC_BITS)), hv⟩ hq
    (iters (n - 2 * W_BITS - VEC_BITS)) (fun p => data.getD p default)
    (fun t ht => iters_idx_lt _ t ht) (iters_idx_nodup _)
    (iters_cover _ _ hq)
  rw [hdm] at hfold
  rw [hfold, bit_reverse16_spec]
  -- index bookkeeping: the source element index is the (n+4)-bit reversal
  have he16 : e.val < 2 ^ 4 := by
    have h24 : (2:ℕ) ^ 4 = 16 := by norm_num
    omega
  have hc1 := revBits_concat 4 n p e.val he16
  have hsplit1 : 16 * p + e.val = p * 2 ^ 4 + e.val := by
    have h24 : (2:ℕ) ^ 4 = 16 := by norm_num
    rw [h24]
    omega
  rw [← hsplit1, add_comm 4 n] at hc1
  have harg : p / 2 ^ (2 * W_BITS + (n - 2 * W_BITS - VEC_BITS))
      * 2 ^ (2 * W_BITS + (n - 2 * W_BITS - VEC_BITS))
      + p % 2 ^ (2 * W_BITS + (n - 2 * W_BITS - VEC_BITS)) = p := by
    rw [add_comm]
    exact hdm
  have hc2 := revBits_concat (2 * W_BITS + (n - 2 * W_BITS - VEC_BITS)) 4
    (p / 2 ^ (2 * W_BITS + (n - 2 * W_BITS - VEC_BITS)))
    (p % 2 ^ (2 * W_BITS + (n - 2 * W_BITS - VEC_BITS))) hq
  rw [harg, hEn] at hc2
  rw [hc2] at hc1
  -- hc1 : revBits (n+4) (16p + e) = rev4 e * 2^n + (revE (p%S) * 2^4 + rev4 (p/S))
  have hb1 := revBits4_lt16 e.val
  have hb2 := revBits4_lt16 (p / 2 ^ (2 * W_BITS + (n - 2 * W_BITS - VEC_BITS)))
  have hform : revBits 4 e.val * 2 ^ n
      + (revBits (2 * W_BITS + (n - 2 * W_BITS - VEC_BITS))
          (p % 2 ^ (2 * W_BITS + (n - 2 * W_BITS - VEC_BITS))) * 2 ^ 4
        + revBits 4 (p / 2 ^ (2 * W_BITS + (n - 2 * W_BITS - VEC_BITS))))
      = 16 * (revBits (2 * W_BITS + (n - 2 * W_BITS - VEC_BITS))
            (p % 2 ^ (2 * W_BITS + (n - 2 * W_BITS - VEC_BITS)))
          + revBits 4 e.val * 2 ^ (2 * W_BITS + (n - 2 * W_BITS - VEC_BITS)))
        + revBits 4 (p / 2 ^ (2 * W_BITS + (n - 2 * W_BITS - VEC_BITS))) := by
    rw [hpow16]
    ring
  rw [hform] at hc1
  have hdiv : revBits (n + 4) (16 * p + e.val) / 16
      = revBits (2 * W_BITS + (n - 2 * W_BITS - VEC_BITS))
          (p % 2 ^ (2 * W_BITS + (n - 2 * W_BITS - VEC_BITS)))
        + revBits 4 e.val * 2 ^ (2 * W_BITS + (n - 2 * W_BITS - VEC_BITS)) := by
    rw [hc1, Nat.mul_add_div (by norm_num), Nat.div_eq_of_lt hb2, add_zero]
  have hmod : revBits (n + 4) (16 * p + e.val) % 16
      = revBits 4 (p / 2 ^ (2 * W_BITS + (n - 2 * W_BITS - VEC_BITS))) := by
    rw [hc1, Nat.mul_add_mod, Nat.mod_eq_of_lt hb2]
  have hfin : (⟨revBits (n + 4) (16 * p + e.val) % 16, by omega⟩ : Fin 16)
      = ⟨revBits 4 (p / 2 ^ (2 * W_BITS + (n - 2 * W_BITS - VEC_BITS))), by omega⟩ :=
    Fin.ext hmod
  rw [hdiv, hfin]

/-! ## Unpacking a packed slice into its element sequence -/

theorem unpack_length (l : List PackedBaseField) : (unpack l).length = 16 * l.length := by
  induction l with
  | nil => rfl
  | cons a l ih =>
      simp only [unpack, List.flatMap_cons, List.length_append, List.length_ofFn,
        List.length_cons] at *
      omega

theorem unpack_getD (l : List PackedBaseField) :
    ∀ j, j < 16 * l.length →
      (unpack l).getD j default = l.getD (j / 16) default ⟨j % 16, by omega⟩ := by
  induction l with
  | nil => intro j hj; simp at hj
  | cons a l ih =>
      intro j hj
      rw [List.length_cons] at hj
      have hexp : unpack (a :: l) = List.ofFn a ++ unpack l := by
        simp [unpack]
      rw [hexp]
      by_cases hj16 : j < 16
      · rw [List.getD_append _ _ _ _ (by rw [List.length_ofFn]; exact hj16)]
        rw [List.getD_eq_getElem _ _ (by rw [List.length_ofFn]; exact hj16),
          List.getElem_ofFn]
        have hd0 : j / 16 = 0 := by omega
        rw [hd0, List.getD_cons_zero]
        have hfj : (⟨j, by omega⟩ : Fin 16) = ⟨j % 16, by omega⟩ :=
          Fin.ext (show j = j % 16 by omega)
        rw [hfj]
      · rw [List.getD_append_right _ _ _ _ (by rw [List.length_ofFn]; omega),
          List.length_ofFn, ih (j - 16) (by omega)]
        have h1 : (j - 16) / 16 = j / 16 - 1 := by omega
        have h3 : j / 16 = (j / 16 - 1) + 1 := by omega
        have hfj : (⟨(j - 16) % 16, by omega⟩ : Fin 16) = ⟨j % 16, by omega⟩ :=
          Fin.ext (show (j - 16) % 16 = j % 16 by omega)
        rw [h1, hfj, h3, List.getD_cons_succ]
        have h4 : j / 16 - 1 + 1 - 1 = j / 16 - 1 := by omega
        rw [h4]

/-! ## Claims C1, C2, C3, C4, C7 -/

/-- C1 (amended): for every slice of packed lanes of length 2^n with
MIN_LOG_SIZE ≤ n ≤ 36 (so that the `u32` index arithmetic is exact),
unpacking the result of `bit_reverse_m31` yields exactly the element-level
bit-reversal (over n + VEC_BITS = n + 4 index bits) of the unpacked input. -/
theorem c1_bit_reverse_unpack_equiv (n : ℕ) (data : List PackedBaseField)
    (hlen : data.length = 2 ^ n) (hn : MIN_LOG_SIZE ≤ n) (hn36 : n ≤ 36) :
    ∃ out, bit_reverse_m31 data = some out ∧
      unpack out = (List.range (16 * data.length)).map
        fun j => (unpack data).getD (revBits (n + 4) j) default := by
  obtain ⟨out, hsome, holen, hform⟩ := bit_reverse_m31_master n data hlen hn hn36
  refine ⟨out, hsome, ?_⟩
  have hpw : (2:ℕ) ^ (n + 4) = 2 ^ n * 16 := by
    rw [pow_add]
    norm_num
  apply List.ext_getElem
  · rw [unpack_length, holen]
    simp [hlen]
  · intro j hj1 hj2
    rw [unpack_length, holen] at hj1
    have hju : j < (unpack out).length := by
      rw [unpack_length, holen]
      exact hj1
    have hrb : revBits (n + 4) j < 16 * data.length := by
      have h := revBits_lt (n + 4) j
      rw [hlen]
      omega
    have e16 : 16 * (j / 16) + (⟨j % 16, by omega⟩ : Fin 16).val = j := by
      show 16 * (j / 16) + j % 16 = j
      omega
    rw [List.getElem_map, List.getElem_range]
    rw [← List.getD_eq_getElem (unpack out) default hju]
    rw [unpack_getD out j (by rw [holen]; exact hj1)]
    rw [unpack_getD data (revBits (n + 4) j) hrb]
    have hform2 := hform (j / 16) (by omega) ⟨j % 16, by omega⟩
    rw [hform2]
    have hre : revBits (n + 4) (16 * (j / 16) + (⟨j % 16, by omega⟩ : Fin 16).val)
        = revBits (n + 4) j := congrArg _ e16
    simp only [hre]

/-- Witness for C1 at `n = 10` on the all-zero slice of 1024 lanes. -/
theorem c1_bit_reverse_unpack_equiv_witness :
    (List.replicate 1024 (default : PackedBaseField)).length = 2 ^ 10
    ∧ MIN_LOG_SIZE ≤ 10 ∧ (10:ℕ) ≤ 36
    ∧ ∃ out, bit_reverse_m31 (List.replicate 1024 (default : PackedBaseField)) = some out ∧
        unpack out
          = (List.range (16 * (List.replicate 1024 (default : PackedBaseField)).length)).map
              fun j => (unpack (List.replicate 1024 (default : PackedBaseField))).getD
                (revBits (10 + 4) j) default :=
  ⟨by norm_num [List.length_replicate], by norm_num [MIN_LOG_SIZE, W_BITS, VEC_BITS],
    by norm_num,
    c1_bit_reverse_unpack_equiv 10 _ (by norm_num [List.length_replicate])
      (by norm_num [MIN_LOG_SIZE, W_BITS, VEC_BITS]) (by norm_num)⟩

/-- C2 (amended): the post-condition of `bit_reverse_m31` holds at the element
level over n + 4 index bits, on valid slices of 2^n lanes with n ≤ 36 (where
the `u32` index arithmetic is exact): the call succeeds and element `e` of
output lane `p` equals input element `bitrev_{n+4}(16p+e)` (input lane
`bitrev_{n+4}(16p+e) / 16`, in-lane index `mod 16`). -/
theorem c2_element_level_postcondition (n : ℕ) (data : List PackedBaseField)
    (hlen : data.length = 2 ^ n) (hn : MIN_LOG_SIZE ≤ n) (hn36 : n ≤ 36) :
    ∃ out, bit_reverse_m31 data = some out ∧ out.length = 2 ^ n ∧
      ∀ p : ℕ, p < 2 ^ n → ∀ e : Fin 16,
        out.getD p default e
          = data.getD (revBits (n + 4) (16 * p + e.val) / 16) default
              ⟨revBits (n + 4) (16 * p + e.val) % 16, by omega⟩ :=
  bit_reverse_m31_master n data hlen hn hn36

/-- Witness for the amended C2 at `n = 10`. -/
theorem c2_element_level_postcondition_witness :
    (List.replicate 1024 (default : PackedBaseField)).length = 2 ^ 10
    ∧ MIN_LOG_SIZE ≤ 10 ∧ (10:ℕ) ≤ 36
    ∧ ∃ out, bit_reverse_m31 (List.replicate 1024 (default : PackedBaseField)) = some out
        ∧ out.length = 2 ^ 10
        ∧ ∀ p : ℕ, p < 2 ^ 10 → ∀ e : Fin 16,
            out.getD p default e
              = (List.replicate 1024 (default : PackedBaseField)).getD
                  (revBits (10 + 4) (16 * p + e.val) / 16) default
                  ⟨revBits (10 + 4) (16 * p + e.val) % 16, by omega⟩ :=
  ⟨by norm_num [List.length_replicate], by norm_num [MIN_LOG_SIZE, W_BITS, VEC_BITS],
    by norm_num,
    c2_element_level_postcondition 10 _ (by norm_num [List.length_replicate])
      (by norm_num [MIN_LOG_SIZE, W_BITS, VEC_BITS]) (by norm_num)⟩

theorem seqData_length : seqData.length = 2 ^ 10 := by
  simp only [seqData, List.length_map, List.length_range]
  norm_num

theorem seqData_getD (p : ℕ) (hp : p < 1024) (e : Fin 16) :
    seqData.getD p default e = ⟨(16 * p + e.val) % 2147483647, by omega⟩ := by
  unfold seqData
  rw [List.getD_eq_getElem _ _ (by simpa using hp), List.getElem_map, List.getElem_range]

/-- Counterexample to C2 as stated (lane-level post-condition
`data'[i] = data[bitrev_n(i)]`): on the slice whose element at element index
`j` holds the value `j`, output lane 0 differs from input lane
`bitrev_10(0) = 0` — element 1 of output lane 0 is the input element
`bitrev_14(1) = 8192`, not 1. -/
theorem c2_lane_level_counterexample :
    (outOf (bit_reverse_m31 seqData)).getD 0 default ⟨1, by norm_num⟩
      ≠ seqData.getD (revBits 10 0) default ⟨1, by norm_num⟩ := by
  obtain ⟨out, hsome, holen, hform⟩ :=
    bit_reverse_m31_master 10 seqData seqData_length
      (by norm_num [MIN_LOG_SIZE, W_BITS, VEC_BITS]) (by norm_num)
  have hout : outOf (bit_reverse_m31 seqData) = out := by
    rw [hsome]
    rfl
  rw [hout]
  have h := hform 0 (by norm_num) ⟨1, by norm_num⟩
  rw [h]
  have hrv : revBits (10 + 4) (16 * 0 + (⟨1, by norm_num⟩ : Fin 16).val) = 8192 := by decide
  simp only [hrv]
  have hrv0 : revBits 10 0 = 0 := by decide
  rw [hrv0]
  have h16a : (8192:ℕ) / 16 = 512 := by norm_num
  have h16b : (8192:ℕ) % 16 = 0 := by norm_num
  simp only [h16a, h16b]
  rw [seqData_getD 512 (by norm_num) _, seqData_getD 0 (by norm_num) _]
  intro hcon
  have hval := congrArg Fin.val hcon
  norm_num at hval

/-- C3 (amended): on every valid slice of 2^n lanes with n ≤ 36 (where the
`u32` index arithmetic is exact), applying `bit_reverse_m31` twice restores
the original slice. -/
theorem c3_bit_reverse_involution (n : ℕ) (data : List PackedBaseField)
    (hlen : data.length = 2 ^ n) (hn : MIN_LOG_SIZE ≤ n) (hn36 : n ≤ 36) :
    ∃ out out2, bit_reverse_m31 data = some out ∧ bit_reverse_m31 out = some out2
      ∧ out2 = data := by
  obtain ⟨out, hsome, holen, hform⟩ := bit_reverse_m31_master n data hlen hn hn36
  obtain ⟨out2, hsome2, holen2, hform2⟩ := bit_reverse_m31_master n out holen hn hn36
  refine ⟨out, out2, hsome, hsome2, ?_⟩
  have hpw : (2:ℕ) ^ (n + 4) = 2 ^ n * 16 := by
    rw [pow_add]
    norm_num
  apply List.ext_getElem (by rw [holen2, hlen])
  intro p hp1 hp2
  have hp : p < 2 ^ n := by
    rw [holen2] at hp1
    exact hp1
  rw [← List.getD_eq_getElem out2 default hp1, ← List.getD_eq_getElem data default hp2]
  funext e
  rw [hform2 p hp e]
  have hP : revBits (n + 4) (16 * p + e.val) < 2 ^ (n + 4) := revBits_lt _ _
  have hP16 : revBits (n + 4) (16 * p + e.val) / 16 < 2 ^ n := by omega
  have h2 := hform (revBits (n + 4) (16 * p + e.val) / 16) hP16
    ⟨revBits (n + 4) (16 * p + e.val) % 16, by omega⟩
  rw [h2]
  have harg : 16 * (revBits (n + 4) (16 * p + e.val) / 16)
      + (⟨revBits (n + 4) (16 * p + e.val) % 16, by omega⟩ : Fin 16).val
      = revBits (n + 4) (16 * p + e.val) := by
    show 16 * (revBits (n + 4) (16 * p + e.val) / 16)
      + revBits (n + 4) (16 * p + e.val) % 16 = revBits (n + 4) (16 * p + e.val)
    omega
  have hlt : 16 * p + e.val < 2 ^ (n + 4) := by
    have he := e.isLt
    omega
  have hcomp : revBits (n + 4) (16 * (revBits (n + 4) (16 * p + e.val) / 16)
      + (⟨revBits (n + 4) (16 * p + e.val) % 16, by omega⟩ : Fin 16).val)
      = 16 * p + e.val := by
    rw [harg]
    exact revBits_involutive _ _ hlt
  simp only [hcomp]
  have hq1 : (16 * p + e.val) / 16 = p := by omega
  have hq2 : (16 * p + e.val) % 16 = e.val := by omega
  simp only [hq1, hq2]

/-- Witness for C3 at `n = 10` on the all-zero slice of 1024 lanes. -/
theorem c3_bit_reverse_involution_witness :
    (List.replicate 1024 (default : PackedBaseField)).length = 2 ^ 10
    ∧ MIN_LOG_SIZE ≤ 10 ∧ (10:ℕ) ≤ 36
    ∧ ∃ out out2,
        bit_reverse_m31 (List.replicate 1024 (default : PackedBaseField)) = some out
        ∧ bit_reverse_m31 out = some out2
        ∧ out2 = List.replicate 1024 (default : PackedBaseField) :=
  ⟨by norm_num [List.length_replicate], by norm_num [MIN_LOG_SIZE, W_BITS, VEC_BITS],
    by norm_num,
    c3_bit_reverse_involution 10 _ (by norm_num [List.length_replicate])
      (by norm_num [MIN_LOG_SIZE, W_BITS, VEC_BITS]) (by norm_num)⟩

/-- C4 (amended): under checked (debug) shift semantics, `bit_reverse_m31`
completes without aborting exactly when the slice length is a power of two,
its log2 is at least `MIN_LOG_SIZE`, and the loop-bound shift amount
`a_bits = log2 − 2·W_BITS − VEC_BITS` is below the `u32` width 32. -/
theorem c4_precondition_asserts (data : List PackedBaseField) :
    (bit_reverse_m31 data).isSome = true
      ↔ (∃ k, data.length = 2 ^ k) ∧ MIN_LOG_SIZE ≤ data.length.log2
        ∧ data.length.log2 - 2 * W_BITS - VEC_BITS < 32 := by
  constructor
  · intro h
    by_cases h1 : is_power_of_two data.length
    · by_cases h2 : data.length.log2 < MIN_LOG_SIZE
      · exfalso
        simp only [bit_reverse_m31] at h
        rw [if_neg (fun hcon => hcon h1), if_pos h2] at h
        simp at h
      · by_cases h3 : 32 ≤ data.length.log2 - 2 * W_BITS - VEC_BITS
        · exfalso
          simp only [bit_reverse_m31] at h
          rw [if_neg (fun hcon => hcon h1), if_neg h2, if_pos h3] at h
          simp at h
        · refine ⟨?_, by omega, by omega⟩
          unfold is_power_of_two at h1
          rw [Bool.and_eq_true, bne_iff_ne, beq_iff_eq] at h1
          exact ⟨data.length.log2, h1.2⟩
    · exfalso
      simp only [bit_reverse_m31] at h
      rw [if_pos h1] at h
      simp at h
  · rintro ⟨⟨k, hk⟩, h2, h3⟩
    have hlog : data.length.log2 = k := by
      rw [hk, Nat.log2_eq_log_two, Nat.log_pow (by norm_num)]
    have hpw : is_power_of_two data.length = true := by
      unfold is_power_of_two
      rw [hlog, hk]
      simp
    simp only [bit_reverse_m31]
    rw [if_neg (fun hcon => hcon hpw), if_neg (Nat.not_lt.mpr h2),
      if_neg (Nat.not_le.mpr h3)]
    simp

/-- C7: under the checked precondition, every index passed to
`get_unchecked` / `get_unchecked_mut` by `bit_reverse_m31` on a slice of
`2^log_size` lanes is strictly below the slice length. -/
theorem c7_unchecked_indices_in_bounds (log_size : ℕ) (hls : MIN_LOG_SIZE ≤ log_size) :
    ∀ x ∈ bit_reverse_m31_unchecked_indices log_size, x < 2 ^ log_size := by
  intro x hx
  have h10 : 10 ≤ log_size := by
    simp only [MIN_LOG_SIZE, VEC_BITS, W_BITS] at hls
    omega
  simp only [bit_reverse_m31_unchecked_indices] at hx
  rw [List.mem_flatMap] at hx
  obtain ⟨t, ht, hxt⟩ := hx
  have hidx := iters_idxOf_lt (log_size - 2 * W_BITS - VEC_BITS) t ht
  have hnb : log_size - VEC_BITS = 2 * W_BITS + (log_size - 2 * W_BITS - VEC_BITS) := by
    simp only [VEC_BITS, W_BITS]
    omega
  have hrev : bit_reverse_index (idxOf (log_size - 2 * W_BITS - VEC_BITS) t)
      (log_size - VEC_BITS) < 2 ^ (2 * W_BITS + (log_size - 2 * W_BITS - VEC_BITS)) := by
    unfold bit_reverse_index
    rw [hnb]
    exact revBits_lt _ _
  have hpow : 2 ^ log_size
      = 2 ^ (2 * W_BITS + (log_size - 2 * W_BITS - VEC_BITS)) * 16 := by
    have hEn : 2 * W_BITS + (log_size - 2 * W_BITS - VEC_BITS) + 4 = log_size := by
      simp only [VEC_BITS, W_BITS]
      omega
    have h := pow_add 2 (2 * W_BITS + (log_size - 2 * W_BITS - VEC_BITS)) 4
    rw [hEn] at h
    rw [h]
    norm_num
  split at hxt
  · simp at hxt
  · split at hxt
    · simp only [List.mem_map, List.mem_range] at hxt
      obtain ⟨i, hi, rfl⟩ := hxt
      rw [Nat.shiftLeft_eq]
      have hiS : i * 2 ^ (2 * W_BITS + (log_size - 2 * W_BITS - VEC_BITS))
          ≤ 15 * 2 ^ (2 * W_BITS + (log_size - 2 * W_BITS - VEC_BITS)) :=
        Nat.mul_le_mul_right _ (by omega)
      generalize i * 2 ^ (2 * W_BITS + (log_size - 2 * W_BITS - VEC_BITS)) = B
        at hiS ⊢
      omega
    · simp only [List.mem_flatMap, List.mem_range, List.mem_cons,
        List.not_mem_nil, or_false] at hxt
      obtain ⟨i, hi, hx2⟩ := hxt
      have hiS : i * 2 ^ (2 * W_BITS + (log_size - 2 * W_BITS - VEC_BITS))
          ≤ 15 * 2 ^ (2 * W_BITS + (log_size - 2 * W_BITS - VEC_BITS)) :=
        Nat.mul_le_mul_right _ (by omega)
      rcases hx2 with rfl | rfl
      · rw [Nat.shiftLeft_eq]
        generalize i * 2 ^ (2 * W_BITS + (log_size - 2 * W_BITS - VEC_BITS)) = B
          at hiS ⊢
        omega
      · rw [Nat.shiftLeft_eq]
        generalize i * 2 ^ (2 * W_BITS + (log_size - 2 * W_BITS - VEC_BITS)) = B
          at hiS ⊢
        omega

/-- Witness for C7 at `log_size = 10`: index 0 is accessed and in bounds. -/
theorem c7_unchecked_indices_in_bounds_witness :
    MIN_LOG_SIZE ≤ 10 ∧ 0 ∈ bit_reverse_m31_unchecked_indices 10 ∧ (0:ℕ) < 2 ^ 10 :=
  ⟨by norm_num [MIN_LOG_SIZE, W_BITS, VEC_BITS], by decide,
    c7_unchecked_indices_in_bounds 10 (by norm_num [MIN_LOG_SIZE, W_BITS, VEC_BITS]) 0
      (by decide)⟩

/-! ## The abort at `2^42` lanes (checked shift overflow) -/

theorem replicate42_log2 :
    (List.replicate (2 ^ 42) (default : PackedBaseField)).length.log2 = 42 := by
  rw [List.length_replicate, Nat.log2_eq_log_two, Nat.log_pow (by norm_num)]

/-- On a slice of `2^42` lanes both asserts pass, but `a_bits = 32` makes the
checked `u32` loop-bound shift `1u32 << a_bits` abort. -/
theorem brm_pow42_aborts :
    bit_reverse_m31 (List.replicate (2 ^ 42) (default : PackedBaseField)) = none := by
  have hlen : (List.replicate (2 ^ 42) (default : PackedBaseField)).length = 2 ^ 42 :=
    List.length_replicate _ _
  have hpw : is_power_of_two
      (List.replicate (2 ^ 42) (default : PackedBaseField)).length = true := by
    unfold is_power_of_two
    rw [replicate42_log2, hlen]
    simp
  simp only [bit_reverse_m31]
  rw [if_neg (fun hcon => hcon hpw),
    if_neg (show ¬ (List.replicate (2 ^ 42) (default : PackedBaseField)).length.log2
        < MIN_LOG_SIZE by
      rw [replicate42_log2]
      norm_num [MIN_LOG_SIZE, W_BITS, VEC_BITS]),
    if_pos (show 32 ≤ (List.replicate (2 ^ 42) (default : PackedBaseField)).length.log2
        - 2 * W_BITS - VEC_BITS by
      rw [replicate42_log2]
      norm_num [W_BITS, VEC_BITS])]

/-- Counterexample to C1 as stated over every valid size: the slice of `2^42`
lanes has power-of-two length with log2 ≥ MIN_LOG_SIZE, yet the call aborts
(checked `u32` shift overflow at `a_bits = 32`), so no output slice exists to
unpack. -/
theorem c1_counterexample :
    (List.replicate (2 ^ 42) (default : PackedBaseField)).length = 2 ^ 42
    ∧ MIN_LOG_SIZE ≤ 42
    ∧ ¬ ∃ out, bit_reverse_m31 (List.replicate (2 ^ 42) (default : PackedBaseField))
          = some out := by
  refine ⟨List.length_replicate _ _, by norm_num [MIN_LOG_SIZE, W_BITS, VEC_BITS], ?_⟩
  rintro ⟨out, hout⟩
  rw [brm_pow42_aborts] at hout
  exact Option.noConfusion hout

/-- Counterexample to C3 as stated over every valid size: on the slice of
`2^42` lanes already the first call aborts, so the double application cannot
restore the input. -/
theorem c3_counterexample :
    (List.replicate (2 ^ 42) (default : PackedBaseField)).length = 2 ^ 42
    ∧ MIN_LOG_SIZE ≤ 42
    ∧ ¬ ∃ out out2,
        bit_reverse_m31 (List.replicate (2 ^ 42) (default : PackedBaseField)) = some out
        ∧ bit_reverse_m31 out = some out2
        ∧ out2 = List.replicate (2 ^ 42) (default : PackedBaseField) := by
  refine ⟨List.length_replicate _ _, by norm_num [MIN_LOG_SIZE, W_BITS, VEC_BITS], ?_⟩
  rintro ⟨out, out2, hout, _, _⟩
  rw [brm_pow42_aborts] at hout
  exact Option.noConfusion hout

/-- Counterexample to C4 as stated (success iff the two asserted
preconditions): the slice of `2^42` lanes satisfies both asserts, yet the
checked run aborts on the `u32` shift `1u32 << 32` in the loop bound. -/
theorem c4_counterexample :
    ¬ ((bit_reverse_m31 (List.replicate (2 ^ 42)
          (default : PackedBaseField))).isSome = true
        ↔ (∃ k, (List.replicate (2 ^ 42) (default : PackedBaseField)).length = 2 ^ k)
          ∧ MIN_LOG_SIZE
            ≤ (List.replicate (2 ^ 42) (default : PackedBaseField)).length.log2) := by
  intro hiff
  have h := hiff.mpr ⟨⟨42, List.length_replicate _ _⟩, by
    rw [replicate42_log2]
    norm_num [MIN_LOG_SIZE, W_BITS, VEC_BITS]⟩
  rw [brm_pow42_aborts] at h
  simp at h
